import Mathlib

/-!
Verification development for the j9 media browser: shot aggregation
(handleFilesSelected), cover selection, tag and playlist synchronization
handlers, search filtering and export derivation, shallowly embedded from
src/j9/App.tsx and src/j9/api.ts.

Conventions of the embedding:
- a JS object with string keys is an insertion ordered association list;
- `URL.createObjectURL(f)` is modelled as the `url` field carried by the
  raw input file (the browser assigns a fresh URL per file object);
- `file.text()` is modelled by the `content : Option String` field, where
  `none` is a read failure;
- JS string primitives (`toLowerCase`, `trim`, `split`, `join`,
  `endsWith`, `includes`) are modelled by structurally recursive
  functions over the character list of the string;
- `localeCompare` based sorts and the default JS string sort are both
  modelled by a stable sort (insertionSort) over the total order on
  `String`, matching the stability the JS specification guarantees;
- an `await`ed remote call is modelled by a `remoteOk : Bool` parameter:
  when it is `false` the statements after the `await` never run, so the
  local mirror keeps its previous value and the rejection propagates to
  the caller of the handler.
-/

namespace J9

/-- Model of `s.toLowerCase()` (the tags and queries here are ASCII). -/
def toLowerStr (s : String) : String :=
  ⟨s.data.map Char.toLower⟩

/-- Drop leading and trailing whitespace from a character list. -/
def trimChars (l : List Char) : List Char :=
  ((l.dropWhile Char.isWhitespace).reverse.dropWhile Char.isWhitespace).reverse

/-- Model of `s.trim()`. -/
def trimStr (s : String) : String :=
  ⟨trimChars s.data⟩

/-- Split a character list at every occurrence of `c`; the result is
never empty, mirroring JS `split`. -/
def splitChar (c : Char) : List Char → List (List Char)
  | [] => [[]]
  | d :: ds =>
    match splitChar c ds with
    | [] => [[]]
    | x :: xs => if d == c then [] :: x :: xs else (d :: x) :: xs

/-- Model of `s.split('.')`. -/
def splitDot (s : String) : List String :=
  (splitChar '.' s.data).map (fun l => ⟨l⟩)

/-- Model of `parts.join(sep)`. -/
def intercalateStr (sep : String) : List String → String
  | [] => ""
  | [s] => s
  | s :: rest => s ++ sep ++ intercalateStr sep rest

/-- `startsWithChars s q` holds when `q` begins the character list `s`. -/
def startsWithChars : List Char → List Char → Bool
  | _, [] => true
  | [], _ :: _ => false
  | c :: cs, d :: ds => c == d && startsWithChars cs ds

/-- Model of `s.endsWith(q)`. -/
def endsWithStr (s q : String) : Bool :=
  startsWithChars s.data.reverse q.data.reverse

/-- `hasSubChars q s` holds when `q` occurs contiguously inside `s`. -/
def hasSubChars (q : List Char) : List Char → Bool
  | [] => q.isEmpty
  | c :: cs => startsWithChars (c :: cs) q || hasSubChars q cs

/-- Model of `s.includes(q)` on JS strings. -/
def strIncludes (s q : String) : Bool :=
  hasSubChars q.data s.data

/-- Structural lexicographic comparison of character lists, so that the
kernel can evaluate sorts on concrete strings. -/
def leChars : List Char → List Char → Bool
  | [], _ => true
  | _ :: _, [] => false
  | c :: cs, d :: ds =>
    if c < d then true
    else if d < c then false
    else leChars cs ds

/-- Structural comparison of strings. -/
def strLe (a b : String) : Bool :=
  leChars a.data b.data

theorem leChars_iff_not_lt : ∀ x y : List Char, leChars x y = true ↔ ¬ List.lt y x
  | [], y =>
    ⟨fun _ h => (nomatch h), fun _ => rfl⟩
  | c :: cs, [] =>
    ⟨fun h => by simp [leChars] at h, fun h => absurd (List.lt.nil c cs) h⟩
  | c :: cs, d :: ds => by
    by_cases h1 : c < d
    · simp only [leChars, if_pos h1, true_iff]
      intro hlt
      cases hlt with
      | head _ _ h2 => exact absurd h2 (lt_asymm h1)
      | tail h2 h3 _ => exact h3 h1
    · by_cases h2 : d < c
      · simp only [leChars, if_neg h1, if_pos h2, Bool.false_eq_true, false_iff, not_not]
        exact List.lt.head _ _ h2
      · rw [leChars, if_neg h1, if_neg h2, leChars_iff_not_lt cs ds]
        constructor
        · intro hn hlt
          cases hlt with
          | head _ _ hh => exact h2 hh
          | tail _ _ ht => exact hn ht
        · intro hn hlt
          exact hn (List.lt.tail h2 h1 hlt)

theorem strLe_iff_le (a b : String) : strLe a b = true ↔ a ≤ b := by
  rw [String.le_iff_toList_le, ← not_lt]
  constructor
  · intro h hlt
    exact (leChars_iff_not_lt a.data b.data).mp h ((List.lt_iff_lex_lt _ _).mpr hlt)
  · intro h
    exact (leChars_iff_not_lt a.data b.data).mpr (fun hl => h ((List.lt_iff_lex_lt _ _).mp hl))

/-- A kernel friendly decision procedure for the string order. -/
def decStrLe : DecidableRel (fun a b : String => a ≤ b) :=
  fun a b => decidable_of_iff (strLe a b = true) (strLe_iff_le a b)

/-- Model of the default JS array sort on strings (`.sort()`), a stable
sort by the lexicographic order. -/
def sortStr (l : List String) : List String :=
  @List.insertionSort String (fun a b => a ≤ b) decStrLe l

/-- Lookup `m[k]` in a JS object modelled as an association list. -/
def getEntry (m : List (String × β)) (k : String) : Option β :=
  m.lookup k

/-- Model of `{...m, [k]: v}`: replace the value in place if the key
exists, else append the new key. -/
def setEntry (m : List (String × β)) (k : String) (v : β) : List (String × β) :=
  if m.any (fun e => e.1 == k) then m.map (fun e => if e.1 == k then (k, v) else e)
  else m ++ [(k, v)]

/-- Model of `delete m[k]`. -/
def eraseEntry (m : List (String × β)) (k : String) : List (String × β) :=
  m.filter (fun e => e.1 != k)

/-- Format of a loaded note file: structured (json) or plain text. -/
inductive PromptType where
  | json
  | text
deriving DecidableEq, Repr

/-- A loaded note file, mirroring `PromptFile` in App.tsx. -/
structure PromptFile where
  name : String
  content : String
  type : PromptType
deriving DecidableEq, Repr

/-- A media file, mirroring `MediaFile` in App.tsx. -/
structure MediaFile where
  name : String
  url : String
deriving DecidableEq, Repr

/-- Kind of the chosen cover, mirroring the `coverType` union in App.tsx. -/
inductive CoverType where
  | image
  | video
  | none
deriving DecidableEq, Repr

/-- A shot record, mirroring `Shot` in App.tsx. -/
structure Shot where
  id : String
  imageFiles : List MediaFile
  videoFiles : List MediaFile
  promptFiles : List PromptFile
  coverUrl : String
  coverType : CoverType
deriving DecidableEq, Repr

/-- An input file from the directory picker: its name, the object URL
that `URL.createObjectURL` would yield for it, and the result of reading
its text content (`none` models a read failure of `file.text()`). -/
structure RawFile where
  name : String
  url : String
  content : Option String
deriving DecidableEq, Repr

/-- The comparator `(a, b) => a.name.localeCompare(b.name)` on media files. -/
def byName (a b : MediaFile) : Prop := a.name ≤ b.name

instance : DecidableRel byName :=
  fun a b => decidable_of_iff (strLe a.name b.name = true) (strLe_iff_le a.name b.name)

instance : IsTotal MediaFile byName := ⟨fun a b => le_total a.name b.name⟩

instance : IsTrans MediaFile byName := ⟨fun _ _ _ h₁ h₂ => le_trans h₁ h₂⟩

/-- The comparator `(a, b) => a.name.localeCompare(b.name)` on prompt files. -/
def byPromptName (a b : PromptFile) : Prop := a.name ≤ b.name

instance : DecidableRel byPromptName :=
  fun a b => decidable_of_iff (strLe a.name b.name = true) (strLe_iff_le a.name b.name)

instance : IsTotal PromptFile byPromptName := ⟨fun a b => le_total a.name b.name⟩

instance : IsTrans PromptFile byPromptName := ⟨fun _ _ _ h₁ h₂ => le_trans h₁ h₂⟩

/-- The comparator `(a, b) => a.id.localeCompare(b.id)` on shots. -/
def byId (a b : Shot) : Prop := a.id ≤ b.id

instance : DecidableRel byId :=
  fun a b => decidable_of_iff (strLe a.id b.id = true) (strLe_iff_le a.id b.id)

instance : IsTotal Shot byId := ⟨fun a b => le_total a.id b.id⟩

instance : IsTrans Shot byId := ⟨fun _ _ _ h₁ h₂ => le_trans h₁ h₂⟩

/-- Base name of a file: `file.name.split('.').slice(0, -1).join('.')`
(App.tsx line 143). -/
def baseName (n : String) : String :=
  intercalateStr "." ((splitDot n).dropLast)

/-- Lower cased final extension:
`file.name.split('.').pop()?.toLowerCase() || ""` (App.tsx line 145). -/
def extOf (n : String) : String :=
  toLowerStr (((splitDot n).getLast?).getD "")

/-- Extension table for images (App.tsx line 149). -/
def imageExts : List String := ["jpg", "jpeg", "png", "webp", "gif", "svg", "avif"]

/-- Extension table for videos (App.tsx line 150). -/
def videoExts : List String := ["mp4", "webm", "ogv"]

/-- Extension table for notes (App.tsx line 151). -/
def noteExts : List String := ["json", "txt"]

/-- One group of the grouping map of handleFilesSelected. -/
structure FileGroup where
  imageFiles : List RawFile
  videoFiles : List RawFile
  promptFiles : List RawFile
deriving DecidableEq, Repr

/-- The group a fresh map entry starts from. -/
def emptyGroup : FileGroup := ⟨[], [], []⟩

/-- Classify one file into its group (the push statements of App.tsx
lines 149..151); unrecognized extensions change nothing. -/
def addToGroup (g : FileGroup) (f : RawFile) : FileGroup :=
  let extension := extOf f.name
  if imageExts.contains extension then { g with imageFiles := g.imageFiles ++ [f] }
  else if videoExts.contains extension then { g with videoFiles := g.videoFiles ++ [f] }
  else if noteExts.contains extension then { g with promptFiles := g.promptFiles ++ [f] }
  else g

/-- One iteration of the grouping loop (App.tsx lines 142..152). -/
def insertFile (gs : List (String × FileGroup)) (f : RawFile) : List (String × FileGroup) :=
  let name := baseName f.name
  if name = "" then gs
  else if gs.any (fun e => e.1 == name) then
    gs.map (fun e => if e.1 == name then (e.1, addToGroup e.2 f) else e)
  else gs ++ [(name, addToGroup emptyGroup f)]

/-- The grouping loop of handleFilesSelected (App.tsx lines 142..152). -/
def groupFiles (files : List RawFile) : List (String × FileGroup) :=
  files.foldl insertFile []

/-- Reading of the prompt files of one group, all or nothing
(`Promise.all` over `promptFile.text()`, App.tsx lines 160..165). -/
def loadPrompts : List RawFile → Option (List PromptFile)
  | [] => some []
  | f :: rest =>
    match f.content with
    | Option.none => none
    | some c =>
      (loadPrompts rest).map
        (fun ps =>
          ⟨f.name, c, if endsWithStr f.name ".json" then PromptType.json else PromptType.text⟩
            :: ps)

/-- Cover selection for one shot (App.tsx lines 170..190): the saved
override when it names a present file (an empty saved name is falsy and
skipped), else the first image, else the first video; the kind is video
exactly when the chosen URL occurs among the video files. -/
def resolveCover (savedCoverName : Option String) (imageFiles videoFiles : List MediaFile) :
    String × CoverType :=
  let allMediaFiles := imageFiles ++ videoFiles
  let fromSaved : Option MediaFile :=
    match savedCoverName with
    | some n => if n = "" then none else allMediaFiles.find? (fun f => f.name == n)
    | Option.none => none
  let coverFile : Option MediaFile :=
    match fromSaved with
    | some f => some f
    | Option.none => imageFiles.head?.orElse (fun _ => videoFiles.head?)
  match coverFile with
  | some f =>
    (f.url, if videoFiles.any (fun vf => vf.url == f.url) then CoverType.video else CoverType.image)
  | Option.none => ("", CoverType.none)

/-- Builds one Shot from a group (App.tsx lines 156..204): `none` when
the group has no files at all or a prompt file read fails. -/
def mkShot (savedCovers : List (String × String)) (id : String) (g : FileGroup) : Option Shot :=
  if g.imageFiles.isEmpty && g.videoFiles.isEmpty && g.promptFiles.isEmpty then none
  else
    match loadPrompts g.promptFiles with
    | Option.none => none
    | some loadedPromptFiles =>
      let imageFiles :=
        List.insertionSort byName (g.imageFiles.map (fun f => MediaFile.mk f.name f.url))
      let videoFiles :=
        List.insertionSort byName (g.videoFiles.map (fun f => MediaFile.mk f.name f.url))
      let cover := resolveCover (getEntry savedCovers id) imageFiles videoFiles
      some ⟨id, imageFiles, videoFiles, List.insertionSort byPromptName loadedPromptFiles,
            cover.1, cover.2⟩

/-- The whole scan of handleFilesSelected (App.tsx lines 139..210):
group, build the shots, drop failed groups, sort by id. -/
def handleFilesSelected (savedCovers : List (String × String)) (files : List RawFile) :
    List Shot :=
  List.insertionSort byId
    ((groupFiles files).filterMap (fun e => mkShot savedCovers e.1 e.2))

/-- Shot id to tag list mapping, mirroring `Tags` in App.tsx. -/
abbrev TagMap := List (String × List String)

/-- Playlist name to shot id list mapping, mirroring `Playlists` in App.tsx. -/
abbrev PlMap := List (String × List String)

/-- Result of running one handler: the local mirror afterwards, whether
the remote call was issued, and whether the returned promise rejected. -/
structure HandlerResult (σ : Type) where
  state : σ
  remoteCalled : Bool
  rejected : Bool
deriving DecidableEq, Repr

/-- handleAddTag (App.tsx lines 380..400). Validation failures return
before the remote call; a rejected remote call skips the state update. -/
def handleAddTag (remoteOk : Bool) (tags : TagMap) (shotId tag : String) :
    HandlerResult TagMap :=
  let cleanTag := trimStr tag
  if cleanTag = "" then ⟨tags, false, false⟩
  else
    let currentTags := (getEntry tags shotId).getD []
    if 20 ≤ currentTags.length then ⟨tags, false, false⟩
    else if (currentTags.map toLowerStr).contains (toLowerStr cleanTag) then ⟨tags, false, false⟩
    else if remoteOk then
      ⟨setEntry tags shotId (sortStr (currentTags ++ [cleanTag])), true, false⟩
    else ⟨tags, true, true⟩

/-- handleRemoveTag (App.tsx lines 402..414). -/
def handleRemoveTag (remoteOk : Bool) (tags : TagMap) (shotId tagToRemove : String) :
    HandlerResult TagMap :=
  if remoteOk then
    let newTags := ((getEntry tags shotId).getD []).filter (fun t => t != tagToRemove)
    if 0 < newTags.length then ⟨setEntry tags shotId newTags, true, false⟩
    else ⟨eraseEntry tags shotId, true, false⟩
  else ⟨tags, true, true⟩

/-- The per shot transform inside handleRenameTag (App.tsx lines 423..439). -/
def renameShotTags (oldTag cleanedNewTag : String) (shotTags : List String) : List String :=
  match shotTags.findIdx? (fun t => toLowerStr t == toLowerStr oldTag) with
  | Option.none => shotTags
  | some oldTagIndex =>
    if shotTags.enum.any
        (fun p => p.1 != oldTagIndex && toLowerStr p.2 == toLowerStr cleanedNewTag) then
      shotTags.filter (fun t => toLowerStr t != toLowerStr oldTag)
    else sortStr (shotTags.set oldTagIndex cleanedNewTag)

/-- handleRenameTag (App.tsx lines 416..443). -/
def handleRenameTag (remoteOk : Bool) (tags : TagMap) (oldTag newTag : String) :
    HandlerResult TagMap :=
  let cleanedNewTag := trimStr newTag
  if cleanedNewTag = "" || toLowerStr oldTag == toLowerStr cleanedNewTag then
    ⟨tags, false, false⟩
  else if remoteOk then
    ⟨tags.map (fun e => (e.1, renameShotTags oldTag cleanedNewTag e.2)), true, false⟩
  else ⟨tags, true, true⟩

/-- Playlist side of the local mirror: the mapping and the active name. -/
structure PlState where
  playlists : PlMap
  activePlaylistName : Option String
deriving DecidableEq, Repr

/-- handleCreatePlaylist (App.tsx lines 289..299). -/
def handleCreatePlaylist (remoteOk : Bool) (st : PlState) (newPlaylistName : String) :
    HandlerResult PlState :=
  let name := trimStr newPlaylistName
  if name = "" then ⟨st, false, false⟩
  else if (getEntry st.playlists name).isSome then ⟨st, false, false⟩
  else if remoteOk then ⟨⟨setEntry st.playlists name [], some name⟩, true, false⟩
  else ⟨st, true, true⟩

/-- handleDeletePlaylist (App.tsx lines 301..316); `confirmed` is the
result of the `window.confirm` dialog. -/
def handleDeletePlaylist (remoteOk : Bool) (st : PlState) (nameToDelete : String)
    (confirmed : Bool) : HandlerResult PlState :=
  if !confirmed then ⟨st, false, false⟩
  else if remoteOk then
    let newPlaylists := eraseEntry st.playlists nameToDelete
    let newActive :=
      if st.activePlaylistName = some nameToDelete then
        (sortStr ((st.playlists.map Prod.fst).filter (fun k => k != nameToDelete))).head?
      else st.activePlaylistName
    ⟨⟨newPlaylists, newActive⟩, true, false⟩
  else ⟨st, true, true⟩

/-- handleSaveRenamePlaylist (App.tsx lines 318..338); in the app the
renamed playlist always exists, so `playlists[oldName]` is read with `[]`
as the out of range default. -/
def handleSaveRenamePlaylist (remoteOk : Bool) (st : PlState) (oldName newName : String) :
    HandlerResult PlState :=
  let trimmedNewName := trimStr newName
  if trimmedNewName = "" then ⟨st, false, false⟩
  else if trimmedNewName = oldName then ⟨st, false, false⟩
  else if (getEntry st.playlists trimmedNewName).isSome then ⟨st, false, false⟩
  else if remoteOk then
    let moved :=
      eraseEntry (setEntry st.playlists trimmedNewName ((getEntry st.playlists oldName).getD []))
        oldName
    let newActive :=
      if st.activePlaylistName = some oldName then some trimmedNewName
      else st.activePlaylistName
    ⟨⟨moved, newActive⟩, true, false⟩
  else ⟨st, true, true⟩

/-- handleTogglePlaylist (App.tsx lines 266..287). -/
def handleTogglePlaylist (remoteOk : Bool) (st : PlState) (shotId : String) :
    HandlerResult PlState :=
  match st.activePlaylistName with
  | Option.none => ⟨st, false, false⟩
  | some activeName =>
    if remoteOk then
      let current := (getEntry st.playlists activeName).getD []
      let newList :=
        if current.contains shotId then current.filter (fun id => id != shotId)
        else current ++ [shotId]
      ⟨⟨setEntry st.playlists activeName newList, st.activePlaylistName⟩, true, false⟩
    else ⟨st, true, true⟩

/-- The derived filtered view (App.tsx lines 232..253). -/
def filteredShots (shots : List Shot) (tags : TagMap) (selectedTags : List String)
    (searchQuery : String) : List Shot :=
  let lowerCaseQuery := trimStr (toLowerStr searchQuery)
  let shotsToFilter :=
    if 0 < selectedTags.length then
      shots.filter (fun shot =>
        selectedTags.all (fun selectedTag =>
          ((getEntry tags shot.id).getD []).contains selectedTag))
    else shots
  if lowerCaseQuery = "" then shotsToFilter
  else
    shotsToFilter.filter (fun shot =>
      let shotTags := (getEntry tags shot.id).getD []
      let promptContent :=
        toLowerStr (intercalateStr " " (shot.promptFiles.map PromptFile.content))
      strIncludes (toLowerStr shot.id) lowerCaseQuery ||
      strIncludes promptContent lowerCaseQuery ||
      shotTags.any (fun tag => strIncludes (toLowerStr tag) lowerCaseQuery))

/-- Tags branch of handlePerformExport (App.tsx lines 517..534): the JS
object keys are unique, so collecting the relevant ids in a set and then
reading back their full lists is the same as filtering the entries. -/
def exportTags (tags : TagMap) (itemsToExport : List String) : TagMap :=
  tags.filter (fun e => e.2.any (fun tag => itemsToExport.contains tag))

/-- Shape of a parsed import document, as far as the structural check
`typeof v === 'object' && v !== null && !Array.isArray(v)` observes it. -/
inductive ImportDoc where
  | obj (entries : List (String × List String))
  | arr
  | other
deriving DecidableEq, Repr

/-- Model of the JS object spread `{...prev, ...imported}`. -/
def mergeMaps (prev imported : List (String × List String)) : List (String × List String) :=
  prev.map (fun e =>
    match getEntry imported e.1 with
    | some v => (e.1, v)
    | Option.none => e) ++
  imported.filter (fun e => !(prev.any (fun p => p.1 == e.1)))

/-- Result of a playlist import. -/
structure PlaylistImportResult where
  playlists : PlMap
  activePlaylistName : Option String
  missingCount : Nat
  errored : Bool
deriving DecidableEq, Repr

/-- handlePlaylistFileSelected (App.tsx lines 340..378) after JSON
parsing; a non object document is rejected wholesale. -/
def handlePlaylistFileSelected (st : PlState) (currentShotIds : List String)
    (doc : ImportDoc) : PlaylistImportResult :=
  match doc with
  | ImportDoc.obj importedPlaylists =>
    let allImportedIds := ((importedPlaylists.map Prod.snd).flatten).dedup
    let missingCount := (allImportedIds.filter (fun id => !(currentShotIds.contains id))).length
    let newPlaylists := mergeMaps st.playlists importedPlaylists
    let newActive :=
      match (importedPlaylists.map Prod.fst).head? with
      | some n => if n = "" then st.activePlaylistName else some n
      | Option.none => st.activePlaylistName
    ⟨newPlaylists, newActive, missingCount, false⟩
  | _ => ⟨st.playlists, st.activePlaylistName, 0, true⟩

/-- handleTagFileSelected (App.tsx lines 445..472) after JSON parsing
and the confirm dialog; a non object document is rejected wholesale. -/
def handleTagFileSelected (tags : TagMap) (doc : ImportDoc) : TagMap :=
  match doc with
  | ImportDoc.obj importedTags => mergeMaps tags importedTags
  | _ => tags

/-- One user level tag operation, with the outcome of its remote call. -/
inductive TagOp where
  | add (shotId tag : String) (remoteOk : Bool)
  | remove (shotId tag : String) (remoteOk : Bool)
  | rename (oldTag newTag : String) (remoteOk : Bool)
  | importTags (doc : ImportDoc)
deriving DecidableEq, Repr

/-- The local mirror after one tag operation. -/
def applyTagOp (tags : TagMap) : TagOp → TagMap
  | TagOp.add shotId tag remoteOk => (handleAddTag remoteOk tags shotId tag).state
  | TagOp.remove shotId tag remoteOk => (handleRemoveTag remoteOk tags shotId tag).state
  | TagOp.rename oldTag newTag remoteOk => (handleRenameTag remoteOk tags oldTag newTag).state
  | TagOp.importTags doc => handleTagFileSelected tags doc

/-- The local mirror after a sequence of tag operations. -/
def applyTagOps (tags : TagMap) (ops : List TagOp) : TagMap :=
  ops.foldl applyTagOp tags

/-- Invariant of one tag list: at most 20 entries, and no two entries
equal modulo case. -/
def TagListOk (ts : List String) : Prop :=
  ts.length ≤ 20 ∧ (ts.map toLowerStr).Nodup

/-- Invariant of the tag mirror: unique shot ids, every list valid. -/
def TagInv (tags : TagMap) : Prop :=
  (tags.map Prod.fst).Nodup ∧ ∀ e ∈ tags, TagListOk e.2

instance (ts : List String) : Decidable (TagListOk ts) := by
  unfold TagListOk
  infer_instance

instance (tags : TagMap) : Decidable (TagInv tags) := by
  unfold TagInv
  infer_instance

/-- A tag operation with a well formed payload: an imported mapping must
itself satisfy the per shot invariant and have unique keys. -/
def TagOpOk : TagOp → Prop
  | TagOp.importTags (ImportDoc.obj entries) =>
    (entries.map Prod.fst).Nodup ∧ ∀ e ∈ entries, TagListOk e.2
  | _ => True

/-- The filter the claim describes, literally: shots whose tag list
contains every selected tag and, for a non empty query, whose id,
concatenated note contents or some tag contains the query modulo case. -/
def referenceKeep (tags : TagMap) (selectedTags : List String) (q : String) (shot : Shot) :
    Prop :=
  (∀ t ∈ selectedTags, t ∈ (getEntry tags shot.id).getD []) ∧
  (q ≠ "" →
    (strIncludes (toLowerStr shot.id) q = true ∨
     strIncludes (toLowerStr (String.join (shot.promptFiles.map PromptFile.content))) q = true ∨
     ∃ t ∈ (getEntry tags shot.id).getD [], strIncludes (toLowerStr t) q = true))

instance (tags : TagMap) (selectedTags : List String) (q : String) (shot : Shot) :
    Decidable (referenceKeep tags selectedTags q shot) := by
  unfold referenceKeep
  infer_instance

/-- The reference filter of the claim, with plain concatenation of the
note contents. -/
def referenceFilter (shots : List Shot) (tags : TagMap) (selectedTags : List String)
    (searchQuery : String) : List Shot :=
  let q := trimStr (toLowerStr searchQuery)
  shots.filter (fun shot => decide (referenceKeep tags selectedTags q shot))

/-- Like `referenceKeep`, but with the note contents joined by a single
space, which is what the code actually searches. -/
def referenceKeepSpaced (tags : TagMap) (selectedTags : List String) (q : String)
    (shot : Shot) : Prop :=
  (∀ t ∈ selectedTags, t ∈ (getEntry tags shot.id).getD []) ∧
  (q ≠ "" →
    (strIncludes (toLowerStr shot.id) q = true ∨
     strIncludes (toLowerStr (intercalateStr " " (shot.promptFiles.map PromptFile.content))) q
       = true ∨
     ∃ t ∈ (getEntry tags shot.id).getD [], strIncludes (toLowerStr t) q = true))

instance (tags : TagMap) (selectedTags : List String) (q : String) (shot : Shot) :
    Decidable (referenceKeepSpaced tags selectedTags q shot) := by
  unfold referenceKeepSpaced
  infer_instance

/-- The reference filter with space joined note contents. -/
def referenceFilterSpaced (shots : List Shot) (tags : TagMap) (selectedTags : List String)
    (searchQuery : String) : List Shot :=
  let q := trimStr (toLowerStr searchQuery)
  shots.filter (fun shot => decide (referenceKeepSpaced tags selectedTags q shot))


/-- Classification of one handler run: validation noop (no remote call,
state kept), remote rejection (state kept, rejection surfaced), or a
successful remote call. -/
def HandlerCases {σ : Type} (run : Bool → HandlerResult σ) (s : σ) : Prop :=
  ∀ ro, run ro = ⟨s, false, false⟩ ∨
    (run ro = ⟨s, true, true⟩ ∧ ro = false) ∨
    ((run ro).remoteCalled = true ∧ (run ro).rejected = false ∧ ro = true)

/-- Contract of one mutating handler around its remote call: the local
mirror changes only when the remote call was issued and resolved, and a
rejected remote call leaves the mirror untouched while the rejection is
surfaced to the caller. -/
def MutationContract {σ : Type} (run : Bool → HandlerResult σ) (s : σ) : Prop :=
  (∀ remoteOk, (run remoteOk).state ≠ s →
    (run remoteOk).remoteCalled = true ∧ (run remoteOk).rejected = false) ∧
  (run false).state = s ∧ (run false).remoteCalled = (run false).rejected

lemma mutationContract_of_cases {σ : Type} {run : Bool → HandlerResult σ} {s : σ}
    (h : HandlerCases run s) : MutationContract run s := by
  refine ⟨fun ro hne => ?_, ?_, ?_⟩
  · rcases h ro with h1 | ⟨h1, _⟩ | ⟨h1, h2, _⟩
    · exact absurd (by rw [h1]) hne
    · exact absurd (by rw [h1]) hne
    · exact ⟨h1, h2⟩
  · rcases h false with h1 | ⟨h1, _⟩ | ⟨_, _, h3⟩
    · rw [h1]
    · rw [h1]
    · exact absurd h3 (by simp)
  · rcases h false with h1 | ⟨h1, _⟩ | ⟨_, _, h3⟩
    · rw [h1]
    · rw [h1]
    · exact absurd h3 (by simp)

lemma cases_handleAddTag (tags : TagMap) (shotId tag : String) :
    HandlerCases (fun ro => handleAddTag ro tags shotId tag) tags := by
  intro ro
  simp only [handleAddTag]
  split
  · left; rfl
  split
  · left; rfl
  split
  · left; rfl
  split
  · right; right
    refine ⟨?_, ?_, by assumption⟩ <;> simp_all
  · right; left
    exact ⟨rfl, by simp_all⟩

lemma cases_handleRemoveTag (tags : TagMap) (shotId tag : String) :
    HandlerCases (fun ro => handleRemoveTag ro tags shotId tag) tags := by
  intro ro
  simp only [handleRemoveTag]
  split
  · split
    · right; right; exact ⟨rfl, rfl, by assumption⟩
    · right; right; exact ⟨rfl, rfl, by assumption⟩
  · right; left
    exact ⟨rfl, by simp_all⟩

lemma cases_handleRenameTag (tags : TagMap) (oldTag newTag : String) :
    HandlerCases (fun ro => handleRenameTag ro tags oldTag newTag) tags := by
  intro ro
  simp only [handleRenameTag]
  split
  · left; rfl
  split
  · right; right; exact ⟨rfl, rfl, by assumption⟩
  · right; left
    exact ⟨rfl, by simp_all⟩

lemma cases_handleCreatePlaylist (st : PlState) (name : String) :
    HandlerCases (fun ro => handleCreatePlaylist ro st name) st := by
  intro ro
  simp only [handleCreatePlaylist]
  split
  · left; rfl
  split
  · left; rfl
  split
  · right; right; exact ⟨rfl, rfl, by assumption⟩
  · right; left
    exact ⟨rfl, by simp_all⟩

lemma cases_handleSaveRenamePlaylist (st : PlState) (oldName newName : String) :
    HandlerCases (fun ro => handleSaveRenamePlaylist ro st oldName newName) st := by
  intro ro
  simp only [handleSaveRenamePlaylist]
  split
  · left; rfl
  split
  · left; rfl
  split
  · left; rfl
  split
  · right; right; exact ⟨rfl, rfl, by assumption⟩
  · right; left
    exact ⟨rfl, by simp_all⟩

lemma cases_handleDeletePlaylist (st : PlState) (name : String) (confirmed : Bool) :
    HandlerCases (fun ro => handleDeletePlaylist ro st name confirmed) st := by
  intro ro
  simp only [handleDeletePlaylist]
  split
  · left; rfl
  split
  · right; right; exact ⟨rfl, rfl, by assumption⟩
  · right; left
    exact ⟨rfl, by simp_all⟩

lemma cases_handleTogglePlaylist (st : PlState) (shotId : String) :
    HandlerCases (fun ro => handleTogglePlaylist ro st shotId) st := by
  intro ro
  simp only [handleTogglePlaylist]
  split
  · left
    cases st
    rfl
  · rename_i activeName heq
    split
    · right; right
      refine ⟨?_, ?_, by assumption⟩ <;> simp_all
    · right; left
      constructor
      · cases st
        simp_all
      · simp_all

/-- C1: for every tag or playlist mutation operation (addTag, removeTag,
renameTag, playlist create/rename/delete, toggleShot), the local mirror is
updated only after the corresponding remote call resolves, and whenever the
remote call is rejected the local state is left unmodified and the failure
is surfaced to the caller. -/
theorem c1_mutations_update_mirror_only_after_remote_resolves
    (tags : TagMap) (st : PlState) (shotId tag oldTag newTag createName
      renameOld renameNew deleteName toggleId : String) (confirmed : Bool) :
    MutationContract (fun ro => handleAddTag ro tags shotId tag) tags ∧
    MutationContract (fun ro => handleRemoveTag ro tags shotId tag) tags ∧
    MutationContract (fun ro => handleRenameTag ro tags oldTag newTag) tags ∧
    MutationContract (fun ro => handleCreatePlaylist ro st createName) st ∧
    MutationContract (fun ro => handleSaveRenamePlaylist ro st renameOld renameNew) st ∧
    MutationContract (fun ro => handleDeletePlaylist ro st deleteName confirmed) st ∧
    MutationContract (fun ro => handleTogglePlaylist ro st toggleId) st :=
  ⟨mutationContract_of_cases (cases_handleAddTag tags shotId tag),
   mutationContract_of_cases (cases_handleRemoveTag tags shotId tag),
   mutationContract_of_cases (cases_handleRenameTag tags oldTag newTag),
   mutationContract_of_cases (cases_handleCreatePlaylist st createName),
   mutationContract_of_cases (cases_handleSaveRenamePlaylist st renameOld renameNew),
   mutationContract_of_cases (cases_handleDeletePlaylist st deleteName confirmed),
   mutationContract_of_cases (cases_handleTogglePlaylist st toggleId)⟩

/-- Witness for C1 at a concrete state: a rejected remote call leaves the
tag mirror unchanged. -/
theorem c1_witness :
    (handleAddTag false [("s", ["x"])] "s" "y").state = [("s", ["x"])] :=
  (c1_mutations_update_mirror_only_after_remote_resolves [("s", ["x"])] ⟨[], none⟩
    "s" "y" "a" "b" "c" "d" "e" "f" "g" true).1.2.1

lemma containsLower_iff (cur : List String) (x : String) :
    (cur.map toLowerStr).contains x = true ↔ ∃ t ∈ cur, toLowerStr t = x := by
  simp

/-- C8: addTag trims the tag and rejects empty, limit reached (20 tags) and
case insensitive duplicates before any remote call, leaving the mirror
unchanged; otherwise it issues the remote add and on success appends the
tag and re-sorts the tag list of the shot. -/
theorem c8_addTag_validation_then_append_and_sort
    (remoteOk : Bool) (tags : TagMap) (shotId tag : String) :
    (trimStr tag = "" → handleAddTag remoteOk tags shotId tag = ⟨tags, false, false⟩) ∧
    (20 ≤ ((getEntry tags shotId).getD []).length →
      handleAddTag remoteOk tags shotId tag = ⟨tags, false, false⟩) ∧
    ((∃ t ∈ (getEntry tags shotId).getD [], toLowerStr t = toLowerStr (trimStr tag)) →
      handleAddTag remoteOk tags shotId tag = ⟨tags, false, false⟩) ∧
    (trimStr tag ≠ "" → ((getEntry tags shotId).getD []).length < 20 →
      (∀ t ∈ (getEntry tags shotId).getD [], toLowerStr t ≠ toLowerStr (trimStr tag)) →
      handleAddTag remoteOk tags shotId tag =
        if remoteOk then
          ⟨setEntry tags shotId (sortStr (((getEntry tags shotId).getD []) ++ [trimStr tag])),
            true, false⟩
        else ⟨tags, true, true⟩) := by
  refine ⟨fun h1 => ?_, fun h2 => ?_, fun h3 => ?_, fun h1 h2 h3 => ?_⟩ <;>
    simp only [handleAddTag]
  · rw [if_pos h1]
  · by_cases h1 : trimStr tag = ""
    · rw [if_pos h1]
    · rw [if_neg h1, if_pos h2]
  · by_cases h1 : trimStr tag = ""
    · rw [if_pos h1]
    · by_cases h2 : 20 ≤ ((getEntry tags shotId).getD []).length
      · rw [if_neg h1, if_pos h2]
      · rw [if_neg h1, if_neg h2, if_pos ((containsLower_iff _ _).mpr h3)]
  · rw [if_neg h1, if_neg (not_le.mpr h2),
      if_neg (fun hc => by
        rcases (containsLower_iff _ _).mp hc with ⟨t, ht, hteq⟩
        exact h3 t ht hteq)]

/-- Witness for C8: a concrete case insensitive duplicate is rejected with
no remote call and no state change, and a fresh tag is appended and
sorted. -/
theorem c8_witness :
    handleAddTag true [("s", ["B", "a"])] "s" " A " = ⟨[("s", ["B", "a"])], false, false⟩ ∧
    handleAddTag true [("s", ["b", "a"])] "s" "C" = ⟨[("s", ["C", "a", "b"])], true, false⟩ := by
  constructor
  · exact (c8_addTag_validation_then_append_and_sort true [("s", ["B", "a"])] "s" " A ").2.2.1
      (by decide)
  · have h := (c8_addTag_validation_then_append_and_sort true [("s", ["b", "a"])] "s" "C").2.2.2
      (by decide) (by decide) (by decide)
    rw [h]
    decide


/-- C9: for every tag store state and every non empty selection,
exportTags outputs exactly the entries of the shots having at least one
selected tag, each mapped to its complete tag list. -/
theorem c9_exportTags_full_lists_of_selected_shots
    (tags : TagMap) (sel : List String) (_hsel : sel ≠ []) :
    ∀ shotId shotTags, ((shotId, shotTags) ∈ exportTags tags sel ↔
      ((shotId, shotTags) ∈ tags ∧ ∃ t ∈ shotTags, t ∈ sel)) := by
  intro shotId shotTags
  simp [exportTags, List.mem_filter]

/-- Witness for C9: exporting the selection containing only "red" keeps
shot X with its complete tag list and excludes shot Y. -/
theorem c9_witness :
    ("X", ["red", "blue"]) ∈ exportTags [("X", ["red", "blue"]), ("Y", ["green"])] ["red"] ∧
    ("Y", ["green"]) ∉ exportTags [("X", ["red", "blue"]), ("Y", ["green"])] ["red"] := by
  constructor
  · exact (c9_exportTags_full_lists_of_selected_shots
      [("X", ["red", "blue"]), ("Y", ["green"])] ["red"] (by decide) "X" ["red", "blue"]).mpr
      (by decide)
  · intro h
    have := (c9_exportTags_full_lists_of_selected_shots
      [("X", ["red", "blue"]), ("Y", ["green"])] ["red"] (by decide) "Y" ["green"]).mp h
    revert this
    decide

/-- C10 counterexample: a structurally valid, non empty playlist import
whose first key is the empty string leaves the active playlist unchanged,
refuting the claim that the active playlist always becomes the first key
of a non empty imported mapping. -/
theorem c10_counterexample :
    PlaylistImportResult.activePlaylistName
        (handlePlaylistFileSelected ⟨[], some "p"⟩ [] (ImportDoc.obj [("", ["x"])])) = some "p" ∧
    (some "p" : Option String) ≠ some "" := by
  decide

/-- C10 (amended): after a structurally valid playlist import the entries
are merged; with a non empty imported mapping whose first key is non
empty the active playlist becomes that first key, while an empty mapping,
or a first key equal to the empty string, leaves it unchanged. -/
theorem c10_import_sets_active_playlist_to_first_key
    (st : PlState) (ids : List String) (entries : List (String × List String)) :
    (entries = [] →
      (handlePlaylistFileSelected st ids (ImportDoc.obj entries)).activePlaylistName
        = st.activePlaylistName) ∧
    (∀ k v rest, entries = (k, v) :: rest → k ≠ "" →
      (handlePlaylistFileSelected st ids (ImportDoc.obj entries)).activePlaylistName = some k) ∧
    (∀ v rest, entries = ("", v) :: rest →
      (handlePlaylistFileSelected st ids (ImportDoc.obj entries)).activePlaylistName
        = st.activePlaylistName) ∧
    (handlePlaylistFileSelected st ids (ImportDoc.obj entries)).playlists
      = mergeMaps st.playlists entries := by
  refine ⟨fun he => ?_, fun k v rest he hk => ?_, fun v rest he => ?_, rfl⟩
  · subst he
    rfl
  · subst he
    simp [handlePlaylistFileSelected, hk]
  · subst he
    simp [handlePlaylistFileSelected]

/-- Witness for C10 (amended): a concrete import with first key "a" sets
the active playlist to "a". -/
theorem c10_witness :
    PlaylistImportResult.activePlaylistName
        (handlePlaylistFileSelected ⟨[], some "p"⟩ [] (ImportDoc.obj [("a", ["x"])])) = some "a" :=
  (c10_import_sets_active_playlist_to_first_key ⟨[], some "p"⟩ [] [("a", ["x"])]).2.1
    "a" ["x"] [] rfl (by decide)


/-- C3: renameTag semantics per shot. With a non empty trimmed new tag not
equal modulo case to the old tag: a shot containing the old tag (modulo
case) that also contains the new tag modulo case at a different position
keeps its other tags, drops the old tag and retains exactly one occurrence
of the new tag; a shot containing the old tag but not the new tag has the
old tag replaced in place and the list re-sorted; shots without the old
tag are untouched; and the whole operation is a no-op when the trimmed new
tag is empty or equal modulo case to the old tag. -/
theorem c3_renameTag_merge_replace_noop (tags : TagMap) (oldTag newTag : String) :
    ((trimStr newTag = "" ∨ toLowerStr oldTag = toLowerStr (trimStr newTag)) →
      ∀ ro, handleRenameTag ro tags oldTag newTag = ⟨tags, false, false⟩) ∧
    (trimStr newTag ≠ "" → toLowerStr oldTag ≠ toLowerStr (trimStr newTag) →
      (handleRenameTag true tags oldTag newTag).state
        = tags.map (fun e => (e.1, renameShotTags oldTag (trimStr newTag) e.2))) ∧
    (∀ shotTags, (∀ t ∈ shotTags, toLowerStr t ≠ toLowerStr oldTag) →
      renameShotTags oldTag (trimStr newTag) shotTags = shotTags) ∧
    (∀ shotTags, (shotTags.map toLowerStr).Nodup →
      toLowerStr oldTag ≠ toLowerStr (trimStr newTag) →
      (∃ t ∈ shotTags, toLowerStr t = toLowerStr oldTag) →
      (∃ t ∈ shotTags, toLowerStr t = toLowerStr (trimStr newTag)) →
      renameShotTags oldTag (trimStr newTag) shotTags
          = shotTags.filter (fun t => toLowerStr t != toLowerStr oldTag) ∧
        (renameShotTags oldTag (trimStr newTag) shotTags).countP
          (fun t => toLowerStr t == toLowerStr (trimStr newTag)) = 1) ∧
    (∀ shotTags idx,
      shotTags.findIdx? (fun t => toLowerStr t == toLowerStr oldTag) = some idx →
      (∀ t ∈ shotTags, toLowerStr t ≠ toLowerStr (trimStr newTag)) →
      renameShotTags oldTag (trimStr newTag) shotTags
        = sortStr (shotTags.set idx (trimStr newTag))) := by
  refine ⟨fun h ro => ?_, fun h1 h2 => ?_, fun ts hno => ?_, fun ts hnd hne hold hnew => ?_,
    fun ts idx hfind hnonew => ?_⟩
  · rcases h with h | h
    · simp [handleRenameTag, h]
    · simp [handleRenameTag, h]
  · simp [handleRenameTag, h1, h2]
  · have hnone : ts.findIdx? (fun t => toLowerStr t == toLowerStr oldTag) = none := by
      rw [List.findIdx?_eq_none_iff]
      intro t ht
      simp [hno t ht]
    simp [renameShotTags, hnone]
  · -- the merge branch is taken
    obtain ⟨told, htoldmem, htold⟩ := hold
    obtain ⟨tnew, htnewmem, htnew⟩ := hnew
    have hfind := List.findIdx?_eq_some_of_exists
      (p := fun t => toLowerStr t == toLowerStr oldTag)
      ⟨told, htoldmem, by simp [htold]⟩
    set idx := ts.findIdx (fun t => toLowerStr t == toLowerStr oldTag) with hidxdef
    obtain ⟨hlt, hpidx, _⟩ := List.findIdx?_eq_some_iff_getElem.mp hfind
    -- the index of the new tag occurrence differs from idx
    obtain ⟨j, hj, hjget⟩ := List.getElem_of_mem htnewmem
    have hjne : j ≠ idx := by
      intro hcontr
      subst hcontr
      rw [hjget] at hpidx
      simp only [beq_iff_eq] at hpidx
      rw [htnew] at hpidx
      exact absurd hpidx.symm hne
    have hany : (ts.enum.any
        (fun p => p.1 != idx && toLowerStr p.2 == toLowerStr (trimStr newTag))) = true := by
      rw [List.any_eq_true]
      refine ⟨(j, tnew), ?_, ?_⟩
      · rw [List.mk_mem_enum_iff_getElem?]
        simp [List.getElem?_eq_getElem hj, hjget]
      · simp [hjne, htnew]
    have hres : renameShotTags oldTag (trimStr newTag) ts
        = ts.filter (fun t => toLowerStr t != toLowerStr oldTag) := by
      simp [renameShotTags, hfind, hany]
    refine ⟨hres, ?_⟩
    rw [hres, List.countP_filter]
    have hcongr : ∀ t ∈ ts,
        ((toLowerStr t == toLowerStr (trimStr newTag)) &&
          (toLowerStr t != toLowerStr oldTag)) = (toLowerStr t == toLowerStr (trimStr newTag)) := by
      intro t ht
      by_cases hcase : toLowerStr t = toLowerStr (trimStr newTag)
      · rw [hcase]
        simp only [beq_self_eq_true, Bool.true_and, bne_iff_ne, ne_eq]
        exact fun hcc => hne hcc.symm
      · simp [hcase]
    rw [List.countP_congr (fun t ht => by rw [hcongr t ht])]
    -- count the new tag occurrences through the lower cased image
    have : (ts.countP (fun t => toLowerStr t == toLowerStr (trimStr newTag)))
        = (ts.map toLowerStr).count (toLowerStr (trimStr newTag)) := by
      rw [List.count_eq_countP, List.countP_map]
      rfl
    rw [this]
    exact List.count_eq_one_of_mem hnd (List.mem_map.mpr ⟨tnew, htnewmem, htnew⟩)
  · have hany : (ts.enum.any
        (fun p => p.1 != idx && toLowerStr p.2 == toLowerStr (trimStr newTag))) = false := by
      rw [Bool.eq_false_iff]
      intro hcontr
      rw [List.any_eq_true] at hcontr
      obtain ⟨⟨j, t⟩, hmem, hp⟩ := hcontr
      simp only [Bool.and_eq_true, beq_iff_eq] at hp
      rw [List.mk_mem_enum_iff_getElem?] at hmem
      have ht : t ∈ ts := by
        exact List.getElem?_mem hmem
      exact hnonew t ht hp.2
    simp [renameShotTags, hfind, hany]

/-- Witness for C3: renaming tag a to b on a shot tagged [A, B] merges,
leaving [B] with exactly one occurrence of the new tag modulo case. -/
theorem c3_witness :
    renameShotTags "a" (trimStr "b") ["A", "B"] = ["B"] ∧
    (renameShotTags "a" (trimStr "b") ["A", "B"]).countP
      (fun t => toLowerStr t == toLowerStr (trimStr "b")) = 1 := by
  have h := (c3_renameTag_merge_replace_noop [] "a" "b").2.2.2.1 ["A", "B"]
    (by decide) (by decide) (by decide) (by decide)
  exact ⟨by rw [h.1]; decide, h.2⟩


/-- C7 counterexample: with two notes with contents "ab" and "cd" and the
query "b c", the code searches the space joined contents "ab cd" and keeps
the shot, while the reference filter of the claim searches the plain
concatenation "abcd" and drops it. -/
theorem c7_counterexample :
    filteredShots
        [⟨"s", [], [], [⟨"a.txt", "ab", PromptType.text⟩, ⟨"b.txt", "cd", PromptType.text⟩],
          "", CoverType.none⟩] [] [] "b c" ≠
      referenceFilter
        [⟨"s", [], [], [⟨"a.txt", "ab", PromptType.text⟩, ⟨"b.txt", "cd", PromptType.text⟩],
          "", CoverType.none⟩] [] [] "b c" := by
  decide

/-- C7 (amended): the filtered shot view equals the reference filter of
the claim with the note contents joined by a single space (instead of
plainly concatenated), and the result is a subsequence of the input shot
collection. -/
theorem c7_filteredShots_eq_reference_spaced (shots : List Shot) (tags : TagMap)
    (sel : List String) (sq : String) :
    filteredShots shots tags sel sq = referenceFilterSpaced shots tags sel sq ∧
    (filteredShots shots tags sel sq).Sublist shots := by
  have hsub : (filteredShots shots tags sel sq).Sublist shots := by
    simp only [filteredShots]
    split
    · split
      · exact List.filter_sublist _
      · exact List.Sublist.refl _
    · split
      · exact (List.filter_sublist _).trans (List.filter_sublist _)
      · exact List.filter_sublist _
  refine ⟨?_, hsub⟩
  simp only [filteredShots, referenceFilterSpaced]
  by_cases hq : trimStr (toLowerStr sq) = ""
  · rw [if_pos hq]
    by_cases hsel : 0 < sel.length
    · rw [if_pos hsel]
      apply List.filter_congr
      intro shot _
      rw [Bool.eq_iff_iff]
      simp [referenceKeepSpaced, hq, List.all_eq_true]
    · rw [if_neg hsel]
      have heq : shots.filter
          (fun shot => decide (referenceKeepSpaced tags sel (trimStr (toLowerStr sq)) shot))
          = shots.filter (fun _ => true) := by
        apply List.filter_congr
        intro shot _
        have hsel' : sel = [] := List.length_eq_zero.mp (Nat.eq_zero_of_not_pos hsel)
        simp [referenceKeepSpaced, hq, hsel']
      rw [heq, List.filter_true]
  · rw [if_neg hq]
    by_cases hsel : 0 < sel.length
    · rw [if_pos hsel, List.filter_filter]
      apply List.filter_congr
      intro shot _
      rw [Bool.eq_iff_iff]
      simp [referenceKeepSpaced, hq, List.all_eq_true, List.any_eq_true]
      tauto
    · rw [if_neg hsel]
      apply List.filter_congr
      intro shot _
      have hsel' : sel = [] := List.length_eq_zero.mp (Nat.eq_zero_of_not_pos hsel)
      rw [Bool.eq_iff_iff]
      simp [referenceKeepSpaced, hq, hsel', List.any_eq_true]
      tauto

/-- Witness for C7 (amended) at a concrete state: the code filter and the
space joined reference filter agree on a one shot collection. -/
theorem c7_witness :
    filteredShots [⟨"s", [], [], [⟨"a.txt", "ab", PromptType.text⟩], "", CoverType.none⟩]
        [("s", ["red"])] ["red"] "ab"
      = referenceFilterSpaced
          [⟨"s", [], [], [⟨"a.txt", "ab", PromptType.text⟩], "", CoverType.none⟩]
          [("s", ["red"])] ["red"] "ab" :=
  (c7_filteredShots_eq_reference_spaced
    [⟨"s", [], [], [⟨"a.txt", "ab", PromptType.text⟩], "", CoverType.none⟩]
    [("s", ["red"])] ["red"] "ab").1


/-- Shape of a successfully built shot: its fields in terms of the group. -/
lemma mkShot_fields {c : List (String × String)} {id : String} {g : FileGroup} {s : Shot}
    (h : mkShot c id g = some s) :
    s.id = id ∧
    s.imageFiles = List.insertionSort byName (g.imageFiles.map (fun f => MediaFile.mk f.name f.url)) ∧
    s.videoFiles = List.insertionSort byName (g.videoFiles.map (fun f => MediaFile.mk f.name f.url)) ∧
    (∃ lp, loadPrompts g.promptFiles = some lp ∧
      s.promptFiles = List.insertionSort byPromptName lp) ∧
    (s.coverUrl, s.coverType) = resolveCover (getEntry c id) s.imageFiles s.videoFiles := by
  unfold mkShot at h
  split at h
  · exact absurd h (by simp)
  · split at h
    · exact absurd h (by simp)
    · rename_i lp hlp
      injection h with h
      subst h
      exact ⟨rfl, rfl, rfl, ⟨lp, hlp, rfl⟩, rfl⟩

/-- C5: every shot produced by a directory scan has its images, videos and
notes each sorted non decreasing by file name, and the resulting shot
collection is sorted non decreasing by id. -/
theorem c5_scan_output_sorted (savedCovers : List (String × String)) (files : List RawFile) :
    (∀ s ∈ handleFilesSelected savedCovers files,
      s.imageFiles.Pairwise byName ∧ s.videoFiles.Pairwise byName ∧
        s.promptFiles.Pairwise byPromptName) ∧
    (handleFilesSelected savedCovers files).Pairwise byId := by
  constructor
  · intro s hs
    simp only [handleFilesSelected] at hs
    have hs' := (List.perm_insertionSort byId _).mem_iff.mp hs
    obtain ⟨e, _, hmk⟩ := List.mem_filterMap.mp hs'
    obtain ⟨_, himg, hvid, ⟨lp, _, hpf⟩, _⟩ := mkShot_fields hmk
    refine ⟨?_, ?_, ?_⟩
    · rw [himg]
      exact List.sorted_insertionSort byName _
    · rw [hvid]
      exact List.sorted_insertionSort byName _
    · rw [hpf]
      exact List.sorted_insertionSort byPromptName _
  · exact List.sorted_insertionSort byId _

/-- Witness for C5: a concrete two file scan has sorted fields and a
sorted collection. -/
theorem c5_witness :
    ((⟨"a", [⟨"a.jpg", "u1"⟩], [], [], "u1", CoverType.image⟩ : Shot).imageFiles.Pairwise byName ∧
      (⟨"a", [⟨"a.jpg", "u1"⟩], [], [], "u1", CoverType.image⟩ : Shot).videoFiles.Pairwise byName ∧
      (⟨"a", [⟨"a.jpg", "u1"⟩], [], [], "u1", CoverType.image⟩ : Shot).promptFiles.Pairwise
        byPromptName) ∧
    (handleFilesSelected [] [⟨"b.jpg", "u2", none⟩, ⟨"a.jpg", "u1", none⟩]).Pairwise byId :=
  ⟨(c5_scan_output_sorted [] [⟨"b.jpg", "u2", none⟩, ⟨"a.jpg", "u1", none⟩]).1
      ⟨"a", [⟨"a.jpg", "u1"⟩], [], [], "u1", CoverType.image⟩ (by decide),
   (c5_scan_output_sorted [] [⟨"b.jpg", "u2", none⟩, ⟨"a.jpg", "u1", none⟩]).2⟩


/-- With unique file names, `find?` by the name of a member returns that
member. -/
lemma find?_name_eq {l : List MediaFile} {f : MediaFile}
    (hnd : (l.map MediaFile.name).Nodup) (hf : f ∈ l) :
    l.find? (fun g => g.name == f.name) = some f := by
  induction l with
  | nil => cases hf
  | cons g rest ih =>
    rw [List.map_cons, List.nodup_cons] at hnd
    rcases List.mem_cons.mp hf with rfl | hf'
    · simp [List.find?_cons]
    · have hname : ¬ (g.name == f.name) = true := by
        intro hcontr
        rw [beq_iff_eq] at hcontr
        exact hnd.1 (hcontr ▸ List.mem_map_of_mem MediaFile.name hf')
      simp only [List.find?_cons, hname, cond_false]
      exact ih hnd.2 hf'

/-- Case analysis of resolveCover: either some member of the media lists
is chosen, with its kind decided by URL membership among the videos, or
there is no media at all. -/
lemma resolveCover_cases (saved : Option String) (images videos : List MediaFile) :
    (∃ f, f ∈ images ++ videos ∧
      resolveCover saved images videos =
        (f.url,
          if videos.any (fun vf => vf.url == f.url) then CoverType.video
          else CoverType.image)) ∨
    (images = [] ∧ videos = [] ∧ resolveCover saved images videos = ("", CoverType.none)) := by
  have hdefault : (∀ g : MediaFile, images.head?.orElse (fun _ => videos.head?) = some g →
      g ∈ images ++ videos) := by
    intro g hg
    cases images with
    | nil =>
      cases videos with
      | nil => simp [Option.orElse] at hg
      | cons v vr =>
        simp [Option.orElse] at hg
        simp [hg]
    | cons i ir =>
      simp [Option.orElse] at hg
      simp [hg]
  rcases saved with _ | n
  · -- no saved override
    rcases hcf : images.head?.orElse (fun _ => videos.head?) with _ | g
    · right
      cases images with
      | nil =>
        cases videos with
        | nil => exact ⟨rfl, rfl, by simp [resolveCover, Option.orElse]⟩
        | cons v vr => simp [Option.orElse] at hcf
      | cons i ir => simp [Option.orElse] at hcf
    · left
      exact ⟨g, hdefault g hcf, by simp [resolveCover, hcf]⟩
  · by_cases hn : n = ""
    · subst hn
      rcases hcf : images.head?.orElse (fun _ => videos.head?) with _ | g
      · right
        cases images with
        | nil =>
          cases videos with
          | nil => exact ⟨rfl, rfl, by simp [resolveCover, Option.orElse]⟩
          | cons v vr => simp [Option.orElse] at hcf
        | cons i ir => simp [Option.orElse] at hcf
      · left
        exact ⟨g, hdefault g hcf, by simp [resolveCover, hcf]⟩
    · rcases hfind : (images ++ videos).find? (fun f => f.name == n) with _ | f
      · rcases hcf : images.head?.orElse (fun _ => videos.head?) with _ | g
        · right
          cases images with
          | nil =>
            cases videos with
            | nil => exact ⟨rfl, rfl, by simp [resolveCover, hn, hfind, Option.orElse]⟩
            | cons v vr => simp [Option.orElse] at hcf
          | cons i ir => simp [Option.orElse] at hcf
        · left
          exact ⟨g, hdefault g hcf, by simp [resolveCover, hn, hfind, hcf]⟩
      · left
        exact ⟨f, List.mem_of_find?_eq_some hfind, by simp [resolveCover, hn, hfind]⟩

/-- C4: for every shot of a directory scan the cover fields come from
resolveCover, and resolveCover picks the override target when it names a
present file, else the first image, else the first video; the kind is
video exactly when the chosen file is among the videos, image exactly when
it is among the images, and none exactly when the shot has no media. -/
theorem c4_cover_selection (saved : Option String) (images videos : List MediaFile)
    (hnames : ((images ++ videos).map MediaFile.name).Nodup)
    (hurls : ((images ++ videos).map MediaFile.url).Nodup)
    (hne : ∀ f ∈ images ++ videos, f.name ≠ "") :
    (∀ f ∈ images ++ videos, saved = some f.name →
      (resolveCover saved images videos).1 = f.url) ∧
    ((∀ f ∈ images ++ videos, saved ≠ some f.name) →
      (resolveCover saved images videos).1 =
        (match images.head?.orElse (fun _ => videos.head?) with
         | some g => g.url
         | Option.none => "")) ∧
    ((resolveCover saved images videos).2 = CoverType.none ↔ images = [] ∧ videos = []) ∧
    ((resolveCover saved images videos).2 = CoverType.video ↔
      ∃ v ∈ videos, (resolveCover saved images videos).1 = v.url) ∧
    ((resolveCover saved images videos).2 = CoverType.image ↔
      ∃ i ∈ images, (resolveCover saved images videos).1 = i.url) ∧
    (∀ (savedCovers : List (String × String)) (files : List RawFile) (s : Shot),
      s ∈ handleFilesSelected savedCovers files →
      (s.coverUrl, s.coverType)
        = resolveCover (getEntry savedCovers s.id) s.imageFiles s.videoFiles) := by
  refine ⟨?_, ?_, ?_, ?_, ?_, ?_⟩
  · -- override names a present file
    intro f hf hsaved
    subst hsaved
    simp [resolveCover, hne f hf, find?_name_eq hnames hf]
  · -- override absent: first image, else first video
    intro hno
    rcases saved with _ | n
    · cases images <;> cases videos <;> simp [resolveCover, Option.orElse]
    · by_cases hn : n = ""
      · subst hn
        cases images <;> cases videos <;> simp [resolveCover, Option.orElse]
      · have hfind : (images ++ videos).find? (fun f => f.name == n) = none := by
          rw [List.find?_eq_none]
          intro x hx hpx
          rw [beq_iff_eq] at hpx
          exact hno x hx (by rw [hpx])
        cases images <;> cases videos <;>
          (try simp only [List.cons_append, List.nil_append, List.append_nil] at hfind) <;>
          simp [resolveCover, hn, hfind, Option.orElse]
  · -- kind none exactly when there is no media
    constructor
    · intro hnone
      rcases resolveCover_cases saved images videos with ⟨f, _, heq⟩ | ⟨h1, h2, _⟩
      · rw [heq] at hnone
        by_cases hany : (videos.any (fun vf => vf.url == f.url)) = true
        · simp [hany] at hnone
        · simp [hany] at hnone
      · exact ⟨h1, h2⟩
    · rintro ⟨h1, h2⟩
      rcases resolveCover_cases saved images videos with ⟨f, hfmem, _⟩ | ⟨_, _, heq⟩
      · subst h1
        subst h2
        cases hfmem
      · rw [heq]
  · -- kind video iff the chosen URL is a video URL
    constructor
    · intro hvideo
      rcases resolveCover_cases saved images videos with ⟨f, hfmem, heq⟩ | ⟨_, _, heq⟩
      · rw [heq] at hvideo ⊢
        by_cases hany : (videos.any (fun vf => vf.url == f.url)) = true
        · obtain ⟨v, hvmem, hvb⟩ := List.any_eq_true.mp hany
          rw [beq_iff_eq] at hvb
          exact ⟨v, hvmem, by simp [hvb]⟩
        · simp [hany] at hvideo
      · rw [heq] at hvideo
        simp at hvideo
    · rintro ⟨v, hvmem, hveq⟩
      rcases resolveCover_cases saved images videos with ⟨f, hfmem, heq⟩ | ⟨_, h2, _⟩
      · rw [heq] at hveq ⊢
        have hveq2 : f.url = v.url := hveq
        have hany : (videos.any (fun vf => vf.url == f.url)) = true :=
          List.any_eq_true.mpr ⟨v, hvmem, by rw [beq_iff_eq, hveq2]⟩
        simp [hany]
      · subst h2
        cases hvmem
  · -- kind image iff the chosen URL is an image URL
    constructor
    · intro himage
      rcases resolveCover_cases saved images videos with ⟨f, hfmem, heq⟩ | ⟨_, _, heq⟩
      · rw [heq] at himage ⊢
        by_cases hany : (videos.any (fun vf => vf.url == f.url)) = true
        · simp [hany] at himage
        · have hfimg : f ∈ images := by
            rcases List.mem_append.mp hfmem with h | h
            · exact h
            · exact absurd (List.any_eq_true.mpr ⟨f, h, by simp⟩) hany
          exact ⟨f, hfimg, by simp⟩
      · rw [heq] at himage
        simp at himage
    · rintro ⟨i, himem, hieq⟩
      rcases resolveCover_cases saved images videos with ⟨f, hfmem, heq⟩ | ⟨h1, _, _⟩
      · rw [heq] at hieq ⊢
        have hieq2 : f.url = i.url := hieq
        have hfi : f = i :=
          List.inj_on_of_nodup_map hurls hfmem (List.mem_append_left videos himem) hieq2
        subst hfi
        have hany : (videos.any (fun vf => vf.url == f.url)) = false := by
          rw [Bool.eq_false_iff]
          intro hcontr
          obtain ⟨v, hvmem, hvb⟩ := List.any_eq_true.mp hcontr
          rw [beq_iff_eq] at hvb
          have hvf : v = f :=
            List.inj_on_of_nodup_map hurls (List.mem_append_right images hvmem) hfmem hvb
          subst hvf
          rw [List.map_append] at hurls
          exact (List.nodup_append.mp hurls).2.2
            (List.mem_map_of_mem MediaFile.url himem)
            (List.mem_map_of_mem MediaFile.url hvmem)
        simp [hany]
      · subst h1
        cases himem
  · -- scan output covers are resolveCover applied to the shot fields
    intro savedCovers files s hs
    simp only [handleFilesSelected] at hs
    have hs' := (List.perm_insertionSort byId _).mem_iff.mp hs
    obtain ⟨e, _, hmk⟩ := List.mem_filterMap.mp hs'
    obtain ⟨hid, _, _, _, hcover⟩ := mkShot_fields hmk
    rw [hcover, hid]

/-- Witness for C4: a concrete override naming a video makes that video
the cover. -/
theorem c4_witness :
    (resolveCover (some "v.mp4") [⟨"a.jpg", "u1"⟩] [⟨"v.mp4", "u2"⟩]).1 = "u2" :=
  (c4_cover_selection (some "v.mp4") [⟨"a.jpg", "u1"⟩] [⟨"v.mp4", "u2"⟩] (by decide) (by decide)
    (by decide)).1 ⟨"v.mp4", "u2"⟩ (by decide) rfl


lemma mem_of_getEntry_eq_some {m : List (String × β)} {k : String} {v : β}
    (h : getEntry m k = some v) : (k, v) ∈ m := by
  obtain ⟨l₁, l₂, rfl, _⟩ := List.lookup_eq_some_iff.mp h
  simp

lemma mem_setEntry {m : List (String × β)} {k : String} {v : β} {e : String × β}
    (h : e ∈ setEntry m k v) : e ∈ m ∨ e = (k, v) := by
  unfold setEntry at h
  split at h
  · obtain ⟨e0, he0, heq⟩ := List.mem_map.mp h
    by_cases hk : (e0.1 == k) = true
    · right
      rw [if_pos hk] at heq
      exact heq.symm
    · left
      rw [if_neg hk] at heq
      exact heq ▸ he0
  · rcases List.mem_append.mp h with h | h
    · left
      exact h
    · right
      simpa using h

lemma map_fst_setEntry {m : List (String × β)} {k : String} {v : β} :
    (setEntry m k v).map Prod.fst =
      if m.any (fun e => e.1 == k) then m.map Prod.fst else m.map Prod.fst ++ [k] := by
  unfold setEntry
  split
  · rw [List.map_map]
    apply List.map_congr_left
    intro e _
    simp only [Function.comp_apply]
    split
    · rename_i hk
      simp_all
    · rfl
  · simp

lemma keys_nodup_setEntry {m : List (String × β)} {k : String} {v : β}
    (h : (m.map Prod.fst).Nodup) : ((setEntry m k v).map Prod.fst).Nodup := by
  rw [map_fst_setEntry]
  split
  · exact h
  · rename_i hany
    rw [List.nodup_append]
    refine ⟨h, by simp, ?_⟩
    intro a ha hb
    simp only [List.mem_singleton] at hb
    subst hb
    obtain ⟨e, he, hek⟩ := List.mem_map.mp ha
    exact hany (List.any_eq_true.mpr ⟨e, he, by simp [hek]⟩)

lemma tagInv_setEntry {m : TagMap} {k : String} {v : List String}
    (hm : TagInv m) (hv : TagListOk v) : TagInv (setEntry m k v) := by
  refine ⟨keys_nodup_setEntry hm.1, ?_⟩
  intro e he
  rcases mem_setEntry he with h | h
  · exact hm.2 e h
  · rw [h]
    exact hv

lemma tagInv_eraseEntry {m : TagMap} {k : String} (hm : TagInv m) :
    TagInv (eraseEntry m k) :=
  ⟨List.Nodup.sublist ((List.filter_sublist m).map Prod.fst) hm.1,
   fun e he => hm.2 e (List.mem_of_mem_filter he)⟩

lemma getD_tagListOk {m : TagMap} (hm : TagInv m) (s : String) :
    TagListOk ((getEntry m s).getD []) := by
  rcases hg : getEntry m s with _ | ts
  · exact ⟨by simp, by simp⟩
  · exact hm.2 _ (mem_of_getEntry_eq_some hg)

lemma tagListOk_perm {ts ts' : List String} (hp : ts.Perm ts') (h : TagListOk ts) :
    TagListOk ts' :=
  ⟨hp.length_eq ▸ h.1, ((hp.map toLowerStr).nodup_iff).mp h.2⟩

lemma tagListOk_sublist {ts ts' : List String} (hs : ts'.Sublist ts) (h : TagListOk ts) :
    TagListOk ts' :=
  ⟨le_trans hs.length_le h.1, List.Nodup.sublist (hs.map toLowerStr) h.2⟩

lemma nodup_set {α : Type _} {l : List α} {i : Nat} {v : α} (hnd : l.Nodup)
    (hv : ∀ j (hj : j < l.length), j ≠ i → l.get ⟨j, hj⟩ ≠ v) : (l.set i v).Nodup := by
  induction l generalizing i with
  | nil => simp
  | cons a l ih =>
    cases i with
    | zero =>
      rw [List.set_cons_zero, List.nodup_cons]
      rw [List.nodup_cons] at hnd
      refine ⟨?_, hnd.2⟩
      intro hvmem
      obtain ⟨j, hj, hget⟩ := List.getElem_of_mem hvmem
      exact hv (j + 1) (by simpa using hj) (by simp) (by simpa using hget)
    | succ i =>
      rw [List.set_cons_succ, List.nodup_cons]
      rw [List.nodup_cons] at hnd
      refine ⟨?_, ih hnd.2 ?_⟩
      · intro hamem
        rcases List.mem_or_eq_of_mem_set hamem with h | h
        · exact hnd.1 h
        · exact hv 0 (by simp) (by simp) (by simpa using h)
      · intro j hj hji
        have := hv (j + 1) (by simpa using hj) (by simpa using hji)
        simpa using this

lemma tagListOk_renameShotTags (old clean : String) (ts : List String)
    (h : TagListOk ts) : TagListOk (renameShotTags old clean ts) := by
  unfold renameShotTags
  split
  · exact h
  · rename_i idx hfind
    split
    · exact tagListOk_sublist (List.filter_sublist ts) h
    · rename_i hany
      apply tagListOk_perm
        (@List.perm_insertionSort String (fun a b => a ≤ b) decStrLe _).symm
      constructor
      · rw [List.length_set]
        exact h.1
      · rw [List.map_set]
        apply nodup_set h.2
        intro j hj hji
        rw [List.get_eq_getElem, List.getElem_map]
        intro hcontr
        apply hany
        rw [List.any_eq_true]
        have hj' : j < ts.length := by simpa using hj
        refine ⟨(j, ts[j]), ?_, ?_⟩
        · rw [List.mk_mem_enum_iff_getElem?]
          exact (List.getElem?_eq_getElem hj')
        · simp only [Bool.and_eq_true, bne_iff_ne, ne_eq, beq_iff_eq]
          exact ⟨by simpa using hji, hcontr⟩

lemma tagInv_handleAddTag (ro : Bool) (m : TagMap) (s t : String) (hm : TagInv m) :
    TagInv (handleAddTag ro m s t).state := by
  simp only [handleAddTag]
  by_cases h1 : trimStr t = ""
  · rw [if_pos h1]
    exact hm
  rw [if_neg h1]
  by_cases h2 : 20 ≤ ((getEntry m s).getD []).length
  · rw [if_pos h2]
    exact hm
  rw [if_neg h2]
  by_cases h3 :
      ((((getEntry m s).getD []).map toLowerStr).contains (toLowerStr (trimStr t))) = true
  · rw [if_pos h3]
    exact hm
  rw [if_neg h3]
  by_cases hro : ro = true
  · rw [if_pos hro]
    apply tagInv_setEntry hm
    apply tagListOk_perm
      (@List.perm_insertionSort String (fun a b => a ≤ b) decStrLe _).symm
    have hcur := getD_tagListOk hm s
    constructor
    · rw [List.length_append]
      simp only [List.length_singleton]
      omega
    · rw [List.map_append]
      rw [List.nodup_append]
      refine ⟨hcur.2, by simp, ?_⟩
      intro a ha hb
      simp only [List.map_cons, List.map_nil, List.mem_singleton] at hb
      subst hb
      obtain ⟨x, hx, hxe⟩ := List.mem_map.mp ha
      exact h3 ((containsLower_iff _ _).mpr ⟨x, hx, hxe⟩)
  · rw [if_neg hro]
    exact hm

lemma tagInv_handleRemoveTag (ro : Bool) (m : TagMap) (s t : String) (hm : TagInv m) :
    TagInv (handleRemoveTag ro m s t).state := by
  simp only [handleRemoveTag]
  by_cases hro : ro = true
  · rw [if_pos hro]
    split
    · exact tagInv_setEntry hm
        (tagListOk_sublist (List.filter_sublist _) (getD_tagListOk hm s))
    · exact tagInv_eraseEntry hm
  · rw [if_neg hro]
    exact hm

lemma tagInv_handleRenameTag (ro : Bool) (m : TagMap) (oldTag newTag : String)
    (hm : TagInv m) : TagInv (handleRenameTag ro m oldTag newTag).state := by
  simp only [handleRenameTag]
  split
  · exact hm
  by_cases hro : ro = true
  · rw [if_pos hro]
    constructor
    · rw [List.map_map]
      have : (Prod.fst ∘ fun e : String × List String =>
          (e.1, renameShotTags oldTag (trimStr newTag) e.2)) = Prod.fst := rfl
      rw [this]
      exact hm.1
    · intro e he
      obtain ⟨e0, he0, heq⟩ := List.mem_map.mp he
      rw [← heq]
      exact tagListOk_renameShotTags _ _ _ (hm.2 e0 he0)
  · rw [if_neg hro]
    exact hm

lemma tagInv_mergeMaps {m : TagMap} {entries : List (String × List String)}
    (hm : TagInv m) (hk : (entries.map Prod.fst).Nodup)
    (hv : ∀ e ∈ entries, TagListOk e.2) : TagInv (mergeMaps m entries) := by
  constructor
  · unfold mergeMaps
    rw [List.map_append, List.map_map]
    have hfst : (Prod.fst ∘ fun e : String × List String =>
        match getEntry entries e.1 with
        | some v => (e.1, v)
        | Option.none => e) = Prod.fst := by
      funext e
      simp only [Function.comp_apply]
      split <;> rfl
    rw [hfst]
    rw [List.nodup_append]
    refine ⟨hm.1, List.Nodup.sublist ((List.filter_sublist entries).map Prod.fst) hk, ?_⟩
    intro a ha hb
    obtain ⟨e, he, hek⟩ := List.mem_map.mp hb
    have hnotin := (List.mem_filter.mp he).2
    obtain ⟨e0, he0, he0k⟩ := List.mem_map.mp ha
    have hpx : (e0.1 == e.1) = true := by rw [beq_iff_eq, he0k, hek]
    have hcontr : (m.any fun p => p.1 == e.1) = true :=
      List.any_eq_true.mpr ⟨e0, he0, hpx⟩
    rw [hcontr] at hnotin
    simp at hnotin
  · intro e he
    unfold mergeMaps at he
    rcases List.mem_append.mp he with h | h
    · obtain ⟨e0, he0, heq⟩ := List.mem_map.mp h
      rcases hg : getEntry entries e0.1 with _ | v
      · rw [hg] at heq
        rw [← heq]
        exact hm.2 e0 he0
      · rw [hg] at heq
        rw [← heq]
        exact hv _ (mem_of_getEntry_eq_some hg)
    · exact hv e (List.mem_of_mem_filter h)

instance (op : TagOp) : Decidable (TagOpOk op) := by
  cases op with
  | add s t ro => exact isTrue trivial
  | remove s t ro => exact isTrue trivial
  | rename o n ro => exact isTrue trivial
  | importTags doc =>
    cases doc with
    | obj entries =>
      exact inferInstanceAs
        (Decidable ((entries.map Prod.fst).Nodup ∧ ∀ e ∈ entries, TagListOk e.2))
    | arr => exact isTrue trivial
    | other => exact isTrue trivial

lemma tagInv_applyTagOp (m : TagMap) (op : TagOp) (hm : TagInv m) (hop : TagOpOk op) :
    TagInv (applyTagOp m op) := by
  cases op with
  | add s t ro => exact tagInv_handleAddTag ro m s t hm
  | remove s t ro => exact tagInv_handleRemoveTag ro m s t hm
  | rename o n ro => exact tagInv_handleRenameTag ro m o n hm
  | importTags doc =>
    cases doc with
    | obj entries =>
      exact tagInv_mergeMaps hm hop.1 hop.2
    | arr => exact hm
    | other => exact hm

/-- C2 counterexample: starting from a state satisfying the invariant, a
single importMerge of a structurally valid mapping carrying two tags equal
modulo case produces a shot whose tag list violates case insensitive
uniqueness. -/
theorem c2_counterexample :
    TagInv [] ∧
    ¬ TagInv (applyTagOps [] [TagOp.importTags (ImportDoc.obj [("s", ["A", "a"])])]) := by
  decide

/-- C2 (amended): after any sequence of tag operations (addTag, removeTag,
renameTag, and importMerge of mappings whose own entries satisfy the
invariant) starting from a state satisfying it, every shot keeps at most
20 tags and no two tags equal modulo case. -/
theorem c2_tag_invariant_preserved (m : TagMap) (ops : List TagOp) (hm : TagInv m)
    (hops : ∀ op ∈ ops, TagOpOk op) : TagInv (applyTagOps m ops) := by
  induction ops generalizing m with
  | nil => exact hm
  | cons op rest ih =>
    exact ih _ (tagInv_applyTagOp m op hm (hops op (List.mem_cons_self op rest)))
      (fun o ho => hops o (List.mem_cons_of_mem op ho))

/-- Witness for C2 (amended): a concrete add then remove then rename
sequence keeps the invariant. -/
theorem c2_witness :
    TagInv (applyTagOps [("s", ["a"])]
      [TagOp.add "s" "B" true, TagOp.rename "a" "c" true,
        TagOp.importTags (ImportDoc.obj [("s2", ["x", "Y"])])]) :=
  c2_tag_invariant_preserved [("s", ["a"])]
    [TagOp.add "s" "B" true, TagOp.rename "a" "c" true,
      TagOp.importTags (ImportDoc.obj [("s2", ["x", "Y"])])]
    (by decide) (by decide)


/-- The files of one base name falling in one category, in input order:
the lists the grouping loop accumulates for that id. -/
def filterGroup (files : List RawFile) (id : String) : FileGroup :=
  ⟨files.filter (fun f => baseName f.name == id && imageExts.contains (extOf f.name)),
   files.filter (fun f => baseName f.name == id && videoExts.contains (extOf f.name)),
   files.filter (fun f => baseName f.name == id && noteExts.contains (extOf f.name))⟩

/-- Componentwise concatenation of two groups. -/
def appendGroup (g h : FileGroup) : FileGroup :=
  ⟨g.imageFiles ++ h.imageFiles, g.videoFiles ++ h.videoFiles, g.promptFiles ++ h.promptFiles⟩

lemma appendGroup_empty_left (h : FileGroup) : appendGroup emptyGroup h = h := by
  cases h
  rfl

lemma appendGroup_filterGroup_nil (g : FileGroup) (id : String) :
    appendGroup g (filterGroup [] id) = g := by
  cases g
  simp [appendGroup, filterGroup]

lemma mem_imageExts_not_video {e : String} (h : e ∈ imageExts) : e ∉ videoExts := by
  fin_cases h <;> decide

lemma mem_imageExts_not_note {e : String} (h : e ∈ imageExts) : e ∉ noteExts := by
  fin_cases h <;> decide

lemma mem_videoExts_not_note {e : String} (h : e ∈ videoExts) : e ∉ noteExts := by
  fin_cases h <;> decide

lemma filterGroup_cons_of_not_match {f : RawFile} {id : String}
    (h : ¬ baseName f.name = id) (rest : List RawFile) :
    filterGroup (f :: rest) id = filterGroup rest id := by
  simp [filterGroup, List.filter_cons, h]

lemma appendGroup_filterGroup_cons {f : RawFile} {id : String}
    (hmatch : baseName f.name = id) (g : FileGroup) (rest : List RawFile) :
    appendGroup g (filterGroup (f :: rest) id)
      = appendGroup (addToGroup g f) (filterGroup rest id) := by
  by_cases h1 : extOf f.name ∈ imageExts
  · simp [filterGroup, appendGroup, addToGroup, List.filter_cons, hmatch, h1,
      mem_imageExts_not_video h1, mem_imageExts_not_note h1]
  · by_cases h2 : extOf f.name ∈ videoExts
    · simp [filterGroup, appendGroup, addToGroup, List.filter_cons, hmatch, h1, h2,
        mem_videoExts_not_note h2]
    · by_cases h3 : extOf f.name ∈ noteExts
      · simp [filterGroup, appendGroup, addToGroup, List.filter_cons, hmatch, h1, h2, h3]
      · simp [filterGroup, appendGroup, addToGroup, List.filter_cons, hmatch, h1, h2, h3]


lemma lookup_map_update (gs : List (String × FileGroup)) (fid : String)
    (F : FileGroup → FileGroup) (id : String) :
    (gs.map (fun e => if e.1 == fid then (e.1, F e.2) else e)).lookup id =
      if id = fid then (gs.lookup id).map F else gs.lookup id := by
  induction gs with
  | nil => by_cases h : id = fid <;> simp [List.lookup, h]
  | cons e rest ih =>
    obtain ⟨ek, ev⟩ := e
    rw [List.map_cons]
    by_cases hef : (ek == fid) = true
    · have hhead : (if (ek, ev).1 == fid then ((ek, ev).1, F (ek, ev).2) else (ek, ev))
          = (ek, F ev) := by simp [hef]
      rw [hhead, List.lookup_cons, List.lookup_cons]
      by_cases hei : (id == ek) = true
      · have hif : id = fid := (beq_iff_eq.mp hei).trans (beq_iff_eq.mp hef)
        rw [hei, if_pos hif]
        simp
      · have hei' : (id == ek) = false := by simpa using hei
        rw [hei']
        by_cases hidf : id = fid
        · rw [if_pos hidf]
          simpa [hidf] using ih
        · rw [if_neg hidf]
          simpa [hidf] using ih
    · have hef' : ((ek, ev).1 == fid) = false := by simpa using hef
      have hhead : (if (ek, ev).1 == fid then ((ek, ev).1, F (ek, ev).2) else (ek, ev))
          = (ek, ev) := by simp [hef']
      rw [hhead, List.lookup_cons, List.lookup_cons]
      by_cases hei : (id == ek) = true
      · have hif : ¬ id = fid := by
          intro hc
          apply hef
          rw [beq_iff_eq]
          exact (beq_iff_eq.mp hei).symm.trans hc
        rw [hei, if_neg hif]
      · have hei' : (id == ek) = false := by simpa using hei
        rw [hei']
        by_cases hidf : id = fid
        · rw [if_pos hidf]
          simpa [hidf] using ih
        · rw [if_neg hidf]
          simpa [hidf] using ih

lemma lookup_none_of_not_any {gs : List (String × FileGroup)} {k : String}
    (h : ¬ (gs.any (fun e => e.1 == k)) = true) : gs.lookup k = none := by
  rcases hl : gs.lookup k with _ | v
  · rfl
  · obtain ⟨l₁, l₂, heq, _⟩ := List.lookup_eq_some_iff.mp hl
    exact absurd (List.any_eq_true.mpr ⟨(k, v), by rw [heq]; simp, by simp⟩) h

lemma lookup_insertFile (gs : List (String × FileGroup)) (f : RawFile) (id : String) :
    (insertFile gs f).lookup id =
      if baseName f.name = "" then gs.lookup id
      else if baseName f.name = id then
        (match gs.lookup id with
         | some g => some (addToGroup g f)
         | Option.none => some (addToGroup emptyGroup f))
      else gs.lookup id := by
  unfold insertFile
  by_cases h0 : baseName f.name = ""
  · simp [h0]
  rw [if_neg h0, if_neg h0]
  by_cases hany : (gs.any (fun e => e.1 == baseName f.name)) = true
  · rw [if_pos hany]
    rw [lookup_map_update gs (baseName f.name) (fun g => addToGroup g f) id]
    by_cases hid : baseName f.name = id
    · rw [if_pos (hid.symm), if_pos hid]
      rcases hl : gs.lookup id with _ | g
      · obtain ⟨e, he, hek⟩ := List.any_eq_true.mp hany
        have hsome : (gs.lookup id).isSome :=
          List.lookup_isSome_iff.mpr
            ⟨e, he, by rw [beq_iff_eq] at hek ⊢; rw [hek, hid]⟩
        rw [hl] at hsome
        cases hsome
      · simp
    · rw [if_neg (fun hc => hid hc.symm), if_neg hid]
  · rw [if_neg hany]
    rw [List.lookup_append]
    by_cases hid : baseName f.name = id
    · rw [if_pos hid]
      rw [lookup_none_of_not_any (by rw [hid] at hany; exact hany)]
      rw [List.lookup_cons]
      have : (id == baseName f.name) = true := beq_iff_eq.mpr hid.symm
      rw [this]
      rfl
    · rw [if_neg hid, List.lookup_cons]
      have : (id == baseName f.name) = false := by
        simp only [beq_eq_false_iff_ne, ne_eq]
        exact fun hc => hid hc.symm
      rw [this]
      rcases gs.lookup id with _ | g <;> rfl


lemma lookup_foldl_insertFile (files : List RawFile)
    (gs : List (String × FileGroup)) (id : String) (hid : id ≠ "") :
    (files.foldl insertFile gs).lookup id =
      (match gs.lookup id with
       | some g => some (appendGroup g (filterGroup files id))
       | Option.none =>
         if files.any (fun f => baseName f.name == id) then some (filterGroup files id)
         else none) := by
  induction files generalizing gs with
  | nil =>
    simp only [List.foldl_nil, List.any_nil]
    rcases gs.lookup id with _ | g
    · rfl
    · dsimp only
      rw [appendGroup_filterGroup_nil]
  | cons f rest ih =>
    rw [List.foldl_cons, ih (insertFile gs f), lookup_insertFile gs f id]
    by_cases h0 : baseName f.name = ""
    · rw [if_pos h0]
      have hnm : ¬ baseName f.name = id := fun hc => hid (hc ▸ h0)
      rw [filterGroup_cons_of_not_match hnm]
      have hany : ((f :: rest).any (fun f => baseName f.name == id))
          = (rest.any (fun f => baseName f.name == id)) := by
        simp [List.any_cons, hnm]
      rw [hany]
    · rw [if_neg h0]
      by_cases hm : baseName f.name = id
      · rw [if_pos hm]
        rcases hl : gs.lookup id with _ | g
        · dsimp only
          have hany : ((f :: rest).any (fun f => baseName f.name == id)) = true := by
            simp [List.any_cons, hm]
          rw [hany, if_pos rfl]
          rw [← appendGroup_empty_left (filterGroup (f :: rest) id),
            appendGroup_filterGroup_cons hm]
        · dsimp only
          rw [appendGroup_filterGroup_cons hm]
      · rw [if_neg hm]
        rw [filterGroup_cons_of_not_match hm]
        have hany : ((f :: rest).any (fun f => baseName f.name == id))
            = (rest.any (fun f => baseName f.name == id)) := by
          simp [List.any_cons, hm]
        rw [hany]

lemma keys_foldl_insertFile (files : List RawFile) (gs : List (String × FileGroup))
    (h : ((gs.map Prod.fst).Nodup ∧ ∀ k ∈ gs.map Prod.fst, k ≠ "")) :
    (((files.foldl insertFile gs).map Prod.fst).Nodup ∧
      ∀ k ∈ (files.foldl insertFile gs).map Prod.fst, k ≠ "") := by
  induction files generalizing gs with
  | nil => exact h
  | cons f rest ih =>
    rw [List.foldl_cons]
    apply ih
    unfold insertFile
    by_cases h0 : baseName f.name = ""
    · rw [if_pos h0]
      exact h
    rw [if_neg h0]
    by_cases hany : (gs.any (fun e => e.1 == baseName f.name)) = true
    · rw [if_pos hany]
      have hkeys : (gs.map (fun e =>
          if e.1 == baseName f.name then (e.1, addToGroup e.2 f) else e)).map Prod.fst
            = gs.map Prod.fst := by
        rw [List.map_map]
        apply List.map_congr_left
        intro e _
        simp only [Function.comp_apply]
        split <;> rfl
      rw [hkeys]
      exact h
    · rw [if_neg hany]
      rw [List.map_append]
      constructor
      · rw [List.nodup_append]
        refine ⟨h.1, by simp, ?_⟩
        intro a ha hb
        simp only [List.map_cons, List.map_nil, List.mem_singleton] at hb
        subst hb
        obtain ⟨e, he, hek⟩ := List.mem_map.mp ha
        exact hany (List.any_eq_true.mpr ⟨e, he, beq_iff_eq.mpr hek⟩)
      · intro k hk
        rcases List.mem_append.mp hk with hk | hk
        · exact h.2 k hk
        · simp only [List.map_cons, List.map_nil, List.mem_singleton] at hk
          subst hk
          exact h0

lemma lookup_eq_of_mem_of_nodup {gs : List (String × FileGroup)}
    (hnd : (gs.map Prod.fst).Nodup) {e : String × FileGroup} (he : e ∈ gs) :
    gs.lookup e.1 = some e.2 := by
  induction gs with
  | nil => cases he
  | cons a rest ih =>
    rw [List.map_cons, List.nodup_cons] at hnd
    rcases List.mem_cons.mp he with rfl | he'
    · obtain ⟨k, v⟩ := e
      simp
    · obtain ⟨ak, av⟩ := a
      have hne : (e.1 == ak) = false := by
        rw [beq_eq_false_iff_ne]
        intro hc
        have hmem : e.1 ∈ rest.map Prod.fst := List.mem_map_of_mem Prod.fst he'
        rw [hc] at hmem
        exact hnd.1 hmem
      rw [List.lookup_cons, hne]
      exact ih hnd.2 he'


lemma loadPrompts_eq (l : List RawFile) :
    loadPrompts l =
      (if l.all (fun f => f.content.isSome) then
        some (l.map (fun f => PromptFile.mk f.name (f.content.getD "")
          (if endsWithStr f.name ".json" then PromptType.json else PromptType.text)))
      else none) := by
  induction l with
  | nil => rfl
  | cons f rest ih =>
    rcases hc : f.content with _ | c
    · simp [loadPrompts, hc]
    · simp only [loadPrompts, hc, ih, List.all_cons, Option.isSome_some, Bool.true_and]
      by_cases hall : rest.all (fun f => f.content.isSome) = true
      · simp [hall, hc]
      · simp [hall]

/-- Two permuted lists with distinct sort keys have the same stable sort. -/
lemma insertionSort_key_eq_of_perm {α : Type _} (key : α → String)
    (r : α → α → Prop) [DecidableRel r] [IsTotal α r] [IsTrans α r]
    (hr : ∀ a b, r a b ↔ key a ≤ key b)
    {l₁ l₂ : List α} (hp : l₁.Perm l₂) (hnd : (l₁.map key).Nodup) :
    List.insertionSort r l₁ = List.insertionSort r l₂ := by
  have hperm : (List.insertionSort r l₁).Perm (List.insertionSort r l₂) :=
    (List.perm_insertionSort r l₁).trans (hp.trans (List.perm_insertionSort r l₂).symm)
  have hnd₁ : ((List.insertionSort r l₁).map key).Nodup :=
    (((List.perm_insertionSort r l₁).map key).nodup_iff).mpr hnd
  have hnd₂ : ((List.insertionSort r l₂).map key).Nodup :=
    ((hperm.map key).nodup_iff).mp hnd₁
  have hne₁ : (List.insertionSort r l₁).Pairwise (fun a b => key a ≠ key b) :=
    List.pairwise_map.mp hnd₁
  have hne₂ : (List.insertionSort r l₂).Pairwise (fun a b => key a ≠ key b) :=
    List.pairwise_map.mp hnd₂
  have hs₁ : (List.insertionSort r l₁).Pairwise (fun a b => r a b ∧ key a ≠ key b) :=
    (List.sorted_insertionSort r l₁).and hne₁
  have hs₂ : (List.insertionSort r l₂).Pairwise (fun a b => r a b ∧ key a ≠ key b) :=
    (List.sorted_insertionSort r l₂).and hne₂
  haveI : IsAntisymm α (fun a b => r a b ∧ key a ≠ key b) := by
    constructor
    intro a b hab hba
    exact absurd (le_antisymm ((hr a b).mp hab.1) ((hr b a).mp hba.1)) hab.2
  exact List.eq_of_perm_of_sorted hperm hs₁ hs₂

/-- Building a shot does not depend on the arrival order of the files of
the group when the file names are distinct within each category. -/
lemma mkShot_congr_perm (c : List (String × String)) (id : String) {g g' : FileGroup}
    (hi : g.imageFiles.Perm g'.imageFiles) (hv : g.videoFiles.Perm g'.videoFiles)
    (hn : g.promptFiles.Perm g'.promptFiles)
    (hndi : (g.imageFiles.map RawFile.name).Nodup)
    (hndv : (g.videoFiles.map RawFile.name).Nodup)
    (hndn : (g.promptFiles.map RawFile.name).Nodup) :
    mkShot c id g = mkShot c id g' := by
  have hie : g.imageFiles.isEmpty = g'.imageFiles.isEmpty := by
    rw [Bool.eq_iff_iff, List.isEmpty_iff, List.isEmpty_iff]
    constructor
    · intro h
      rw [h] at hi
      exact hi.symm.eq_nil
    · intro h
      rw [h] at hi
      exact hi.eq_nil
  have hve : g.videoFiles.isEmpty = g'.videoFiles.isEmpty := by
    rw [Bool.eq_iff_iff, List.isEmpty_iff, List.isEmpty_iff]
    constructor
    · intro h
      rw [h] at hv
      exact hv.symm.eq_nil
    · intro h
      rw [h] at hv
      exact hv.eq_nil
  have hpe : g.promptFiles.isEmpty = g'.promptFiles.isEmpty := by
    rw [Bool.eq_iff_iff, List.isEmpty_iff, List.isEmpty_iff]
    constructor
    · intro h
      rw [h] at hn
      exact hn.symm.eq_nil
    · intro h
      rw [h] at hn
      exact hn.eq_nil
  have himg : List.insertionSort byName (g.imageFiles.map (fun f => MediaFile.mk f.name f.url))
      = List.insertionSort byName (g'.imageFiles.map (fun f => MediaFile.mk f.name f.url)) :=
    insertionSort_key_eq_of_perm MediaFile.name byName (fun _ _ => Iff.rfl)
      (hi.map _) (by rw [List.map_map]; exact hndi)
  have hvid : List.insertionSort byName (g.videoFiles.map (fun f => MediaFile.mk f.name f.url))
      = List.insertionSort byName (g'.videoFiles.map (fun f => MediaFile.mk f.name f.url)) :=
    insertionSort_key_eq_of_perm MediaFile.name byName (fun _ _ => Iff.rfl)
      (hv.map _) (by rw [List.map_map]; exact hndv)
  have hprompt : List.insertionSort byPromptName
      (g.promptFiles.map (fun f => PromptFile.mk f.name (f.content.getD "")
        (if endsWithStr f.name ".json" then PromptType.json else PromptType.text)))
      = List.insertionSort byPromptName
        (g'.promptFiles.map (fun f => PromptFile.mk f.name (f.content.getD "")
          (if endsWithStr f.name ".json" then PromptType.json else PromptType.text))) :=
    insertionSort_key_eq_of_perm PromptFile.name byPromptName (fun _ _ => Iff.rfl)
      (hn.map _) (by rw [List.map_map]; exact hndn)
  have hall : (g.promptFiles.all (fun f => f.content.isSome))
      = (g'.promptFiles.all (fun f => f.content.isSome)) := by
    rw [Bool.eq_iff_iff, List.all_eq_true, List.all_eq_true]
    exact ⟨fun h x hx => h x (hn.mem_iff.mpr hx), fun h x hx => h x (hn.mem_iff.mp hx)⟩
  unfold mkShot
  rw [hie, hve, hpe]
  by_cases hempty :
      (g'.imageFiles.isEmpty && g'.videoFiles.isEmpty && g'.promptFiles.isEmpty) = true
  · rw [if_pos hempty, if_pos hempty]
  · rw [if_neg hempty, if_neg hempty]
    rw [loadPrompts_eq, loadPrompts_eq, hall]
    by_cases hall' : (g'.promptFiles.all (fun f => f.content.isSome)) = true
    · rw [if_pos hall', if_pos hall']
      dsimp only
      rw [himg, hvid, hprompt]
    · rw [if_neg hall', if_neg hall']


/-- C6 counterexample: two files sharing the name a.jpg (possible when
the recursive directory scan visits distinct subfolders) keep their input
order inside the shot after the stable sort, so swapping them changes the
image sequence and the cover of the resulting shot. -/
theorem c6_counterexample :
    ([⟨"a.jpg", "u1", none⟩, ⟨"a.jpg", "u2", none⟩] : List RawFile).Perm
        [⟨"a.jpg", "u2", none⟩, ⟨"a.jpg", "u1", none⟩] ∧
      handleFilesSelected [] [⟨"a.jpg", "u1", none⟩, ⟨"a.jpg", "u2", none⟩] ≠
        handleFilesSelected [] [⟨"a.jpg", "u2", none⟩, ⟨"a.jpg", "u1", none⟩] := by
  constructor
  · exact List.Perm.swap _ _ _
  · decide

/-- C6 (amended): when the input file names are pairwise distinct, the
scan is order independent: permuting the input collection yields an
identical shot collection. -/
theorem c6_scan_order_independent (c : List (String × String))
    (files files' : List RawFile) (hperm : files.Perm files')
    (hnames : (files.map RawFile.name).Nodup) :
    handleFilesSelected c files = handleFilesSelected c files' := by
  have hkeys := keys_foldl_insertFile files [] ⟨by simp, by simp⟩
  have hkeys' := keys_foldl_insertFile files' [] ⟨by simp, by simp⟩
  have hchar : ∀ e ∈ files.foldl insertFile [],
      mkShot c e.1 e.2 = mkShot c e.1 (filterGroup files e.1) := by
    intro e he
    have hne := hkeys.2 e.1 (List.mem_map_of_mem Prod.fst he)
    have hl := lookup_eq_of_mem_of_nodup hkeys.1 he
    rw [lookup_foldl_insertFile files [] e.1 hne] at hl
    dsimp only [List.lookup] at hl
    split at hl
    · rw [Option.some.injEq] at hl
      rw [← hl]
    · cases hl
  have hchar' : ∀ e ∈ files'.foldl insertFile [],
      mkShot c e.1 e.2 = mkShot c e.1 (filterGroup files' e.1) := by
    intro e he
    have hne := hkeys'.2 e.1 (List.mem_map_of_mem Prod.fst he)
    have hl := lookup_eq_of_mem_of_nodup hkeys'.1 he
    rw [lookup_foldl_insertFile files' [] e.1 hne] at hl
    dsimp only [List.lookup] at hl
    split at hl
    · rw [Option.some.injEq] at hl
      rw [← hl]
    · cases hl
  have hA : (files.foldl insertFile []).filterMap (fun e => mkShot c e.1 e.2)
      = ((files.foldl insertFile []).map Prod.fst).filterMap
          (fun id => mkShot c id (filterGroup files id)) := by
    rw [List.filterMap_map]
    exact List.filterMap_congr hchar
  have hA' : (files'.foldl insertFile []).filterMap (fun e => mkShot c e.1 e.2)
      = ((files'.foldl insertFile []).map Prod.fst).filterMap
          (fun id => mkShot c id (filterGroup files' id)) := by
    rw [List.filterMap_map]
    exact List.filterMap_congr hchar'
  have hKmem : ∀ (fls : List RawFile)
      (hk : ((((fls.foldl insertFile []).map Prod.fst)).Nodup ∧
        ∀ k ∈ (fls.foldl insertFile []).map Prod.fst, k ≠ "")) (k : String),
      k ∈ (fls.foldl insertFile []).map Prod.fst ↔
        (k ≠ "" ∧ (fls.any (fun f => baseName f.name == k)) = true) := by
    intro fls hk k
    constructor
    · intro hkm
      have hne := hk.2 k hkm
      refine ⟨hne, ?_⟩
      obtain ⟨e, he, hek⟩ := List.mem_map.mp hkm
      have hl := lookup_eq_of_mem_of_nodup hk.1 he
      rw [hek] at hl
      rw [lookup_foldl_insertFile fls [] k hne] at hl
      dsimp only [List.lookup] at hl
      split at hl
      · assumption
      · cases hl
    · rintro ⟨hne, hany⟩
      have hl : (fls.foldl insertFile []).lookup k = some (filterGroup fls k) := by
        rw [lookup_foldl_insertFile fls [] k hne]
        dsimp only [List.lookup]
        rw [if_pos hany]
      have hmem := mem_of_getEntry_eq_some (m := fls.foldl insertFile []) hl
      exact List.mem_map_of_mem Prod.fst hmem
  have hanyiff : ∀ k, (files.any (fun f => baseName f.name == k))
      = (files'.any (fun f => baseName f.name == k)) := by
    intro k
    rw [Bool.eq_iff_iff, List.any_eq_true, List.any_eq_true]
    constructor
    · rintro ⟨x, hx, hp⟩
      exact ⟨x, hperm.mem_iff.mp hx, hp⟩
    · rintro ⟨x, hx, hp⟩
      exact ⟨x, hperm.mem_iff.mpr hx, hp⟩
  have hKperm : (((files.foldl insertFile []).map Prod.fst)).Perm
      ((files'.foldl insertFile []).map Prod.fst) := by
    rw [List.perm_ext_iff_of_nodup hkeys.1 hkeys'.1]
    intro k
    rw [hKmem files hkeys k, hKmem files' hkeys' k, hanyiff k]
  have hVeq : ∀ id, mkShot c id (filterGroup files id) = mkShot c id (filterGroup files' id) := by
    intro id
    apply mkShot_congr_perm
    · exact hperm.filter _
    · exact hperm.filter _
    · exact hperm.filter _
    · exact List.Nodup.sublist ((List.filter_sublist files).map RawFile.name) hnames
    · exact List.Nodup.sublist ((List.filter_sublist files).map RawFile.name) hnames
    · exact List.Nodup.sublist ((List.filter_sublist files).map RawFile.name) hnames
  have hFMperm : (((files.foldl insertFile []).map Prod.fst).filterMap
        (fun id => mkShot c id (filterGroup files id))).Perm
      (((files'.foldl insertFile []).map Prod.fst).filterMap
        (fun id => mkShot c id (filterGroup files' id))) := by
    have h1 := hKperm.filterMap (fun id => mkShot c id (filterGroup files id))
    have h2 : ((files'.foldl insertFile []).map Prod.fst).filterMap
          (fun id => mkShot c id (filterGroup files id))
        = ((files'.foldl insertFile []).map Prod.fst).filterMap
          (fun id => mkShot c id (filterGroup files' id)) :=
      List.filterMap_congr (fun a _ => hVeq a)
    rw [h2] at h1
    exact h1
  have hidsub : ∀ (fls : List RawFile) (K : List String),
      ((K.filterMap (fun id => mkShot c id (filterGroup fls id))).map Shot.id).Sublist K := by
    intro fls K
    induction K with
    | nil => simp
    | cons k Kt ih =>
      rcases hV : mkShot c k (filterGroup fls k) with _ | s
      · simp only [List.filterMap_cons, hV]
        exact ih.cons k
      · simp only [List.filterMap_cons, hV, List.map_cons, (mkShot_fields hV).1]
        exact ih.cons₂ k
  have hidnodup : ((((files.foldl insertFile []).map Prod.fst).filterMap
      (fun id => mkShot c id (filterGroup files id))).map Shot.id).Nodup :=
    List.Nodup.sublist (hidsub files _) hkeys.1
  simp only [handleFilesSelected, groupFiles]
  rw [hA, hA']
  exact insertionSort_key_eq_of_perm Shot.id byId (fun _ _ => Iff.rfl) hFMperm hidnodup

/-- Witness for C6 (amended): permuting two distinctly named files yields
the same scan result. -/
theorem c6_witness :
    handleFilesSelected [] [⟨"a.jpg", "u1", none⟩, ⟨"b.jpg", "u2", none⟩]
      = handleFilesSelected [] [⟨"b.jpg", "u2", none⟩, ⟨"a.jpg", "u1", none⟩] :=
  c6_scan_order_independent [] _ _ (List.Perm.swap _ _ _) (by decide)

end J9
